import Mathlib

/-
Verification of the LogSentinel-3b training engine against its design
specification.  The development shallowly embeds the two source files

  * logsentinel_model.py      (hybrid model: sequence -> logits pipeline)
  * engine/training_controller.py  (staged training controller)

as executable Lean definitions.  Tensors of per-line embeddings are lists,
machine floats are rationals, the sentinel value negative infinity is the
bottom element of WithBot.  External neural collaborators (the frozen
sequence encoder, the projector, the causal decoder, the classifier head)
are abstract functions bundled in a structure: every claim we settle is a
bookkeeping / control-flow property that holds for all instantiations of
those functions.  Two helpers imported from utils.helpers (merge_data and
stack_and_pad_left) are not part of the two source files; they are modelled
from the specification text and are marked as such.
-/

namespace LogSentinel

/-- Modelled from the spec: merge_data (utils.helpers, not among the source
files).  Flattens all samples into one list of log lines and records each
sample's start offset inside the flattened list (spec 4.3 step 2). -/
def merge_data {α : Type} (seqs : List (List α)) : List α × List ℕ :=
  (seqs.flatten, ((seqs.map List.length).scanl (· + ·) 0).dropLast)

/-- Helper of splitAtIndices: emits the pieces lying between consecutive
absolute indices, prev being the boundary already consumed. -/
def splitFrom {γ : Type} (l : List γ) : ℕ → List ℕ → List (List γ)
  | prev, [] => [l.drop prev]
  | prev, i :: is => (l.drop prev).take (i - prev) :: splitFrom l i is

/-- torch.tensor_split with a list of absolute split indices: cuts the list
at each index, producing one more piece than there are indices. -/
def splitAtIndices {γ : Type} (l : List γ) : List ℕ → List (List γ)
  | [] => [l]
  | i :: is => l.take i :: splitFrom l i is

/-- Fixed-size sub-batching of the flattened log lines: the python loop
processes merged_logs[i:i+k] for i = 0, k, 2k, ..., which is chunk number
j = 0 .. ceil(len/k) - 1 slicing l[j*k : j*k+k]. -/
def chunked {α : Type} (k : ℕ) (l : List α) : List (List α) :=
  (List.range ((l.length + k - 1) / k)).map (fun j => (l.drop (j * k)).take k)

/-- Modelled from the spec: stack_and_pad_left (utils.helpers, not among the
source files).  Left-pads the variable-length embedding rows to a common
length (pads are None) and builds the matching attention mask: 0 over the
left pads, 1 over the real positions (spec 4.3 step 8). -/
def stack_and_pad_left {γ : Type} (rows : List (List γ)) :
    List (List (Option γ)) × List (List ℕ) :=
  let maxLen := (rows.map List.length).foldr max 0
  (rows.map (fun r => List.replicate (maxLen - r.length) none ++ r.map some),
   rows.map (fun r => List.replicate (maxLen - r.length) 0 ++ List.replicate r.length 1))

/-- The abstract neural collaborators of LogSentinelModel together with the
configuration the pipeline bookkeeping depends on.  encode is the frozen
sequence encoder applied to one log line (pooled embedding), project the
trainable projector, instr the embedded instruction prefix, decode the
causal decoder applied to one padded row of the batch (None marks a pad
position), classify the 2-logit classifier head on one hidden state. -/
structure ModelFns (α β γ δ : Type) where
  encode : α → β
  project : β → γ
  instr : List γ
  decode : List (Option γ) → List δ
  classify : δ → ℚ × ℚ
  dflt : δ
  maxSeqLen : ℕ

namespace LogSentinelModel

variable {α β γ δ : Type}

/-- LogSentinelModel.get_cls_embeddings: truncate every sample to
max_seq_len lines, flatten with merge_data, encode the flattened lines in
sub-batches of 64 through the frozen encoder, project, then split back into
per-sample segments at the recorded start offsets.  Returns None when the
flattened list is empty (python: if not merged_logs). -/
def get_cls_embeddings (F : ModelFns α β γ δ) (seqs : List (List α)) :
    Option (List (List γ)) :=
  let truncated := seqs.map (fun s => s.take F.maxSeqLen)
  let merged := (merge_data truncated).1
  let starts := (merge_data truncated).2
  if merged.isEmpty then none
  else
    let encoded := ((chunked 64 merged).map (fun c => c.map F.encode)).flatten
    let projected := encoded.map F.project
    some (splitAtIndices projected (starts.drop 1))

/-- The per-sample extraction index used by LogSentinelModel._get_logits:
sequence_lengths = attention_mask.sum(dim=1) - 1, one index per row. -/
def sequence_lengths (masks : List (List ℕ)) : List ℕ :=
  masks.map (fun m => m.sum - 1)

/-- LogSentinelModel._get_logits: keep the samples whose segment is
non-empty (recording their original indices), prepend the instruction
prefix, left-pad into one batch, run the decoder, extract the hidden state
at column attention_mask.sum - 1 of each row and classify it.  Returns None
when nothing was encoded or no sample survived. -/
def get_logits (F : ModelFns α β γ δ) (seqs : List (List α)) :
    Option (List (ℚ × ℚ) × List ℕ) :=
  match get_cls_embeddings F seqs with
  | none => none
  | some segs =>
    let valid := segs.enum.filter (fun p => ¬ p.2.isEmpty)
    if valid.isEmpty then none
    else
      let embeds := valid.map (fun p => F.instr ++ p.2)
      let inputs := (stack_and_pad_left embeds).1
      let masks := (stack_and_pad_left embeds).2
      let hiddens := inputs.map F.decode
      let positions := sequence_lengths masks
      let cls := (hiddens.zip positions).map (fun p => p.1.getD p.2 F.dflt)
      some (cls.map F.classify, valid.map (·.1))

/-- LogSentinelModel.forward: one output row per input sample.  Rows of
surviving samples receive their computed logits at their original index;
every other row is the sentinel (both classes negative infinity, modelled
as the bottom element of WithBot). -/
def forward (F : ModelFns α β γ δ) (seqs : List (List α)) :
    List (WithBot ℚ × WithBot ℚ) :=
  match get_logits F seqs with
  | none => List.replicate seqs.length (⊥, ⊥)
  | some (lg, idxs) =>
    (List.range seqs.length).map (fun i =>
      match (idxs.zip lg).find? (fun p => p.1 == i) with
      | some p => ((p.2.1 : ℚ), (p.2.2 : ℚ))
      | none => (⊥, ⊥))

/-- LogSentinelModel.train_helper: logits of the surviving samples only,
paired with integer labels; a string label maps to class 1 exactly when it
equals "anomalous" and to 0 otherwise. -/
def train_helper (F : ModelFns α β γ δ) (seqs : List (List α))
    (labels : List String) : List (ℚ × ℚ) × List ℕ :=
  match get_logits F seqs with
  | none => ([], [])
  | some (lg, idxs) =>
    (lg, idxs.map (fun i => if labels.getD i "" = "anomalous" then 1 else 0))

end LogSentinelModel

/-- torch.argmax over the two logit columns of one row (ties resolve to the
first maximal index, hence 0 for the sentinel row). -/
def torchArgmax2 (r : WithBot ℚ × WithBot ℚ) : ℤ :=
  if r.1 < r.2 then 1 else 0

/-- TrainingController._evaluate, prediction side: all_preds collects the
per-row argmax over every forward output of the test set. -/
def evaluatePreds (rows : List (WithBot ℚ × WithBot ℚ)) : List ℤ :=
  rows.map torchArgmax2

/-- TrainingController._evaluate, filtering side: valid_indices is the
boolean mask all_preds != -1; both the predictions and the ground-truth
labels are restricted to it before any metric is computed. -/
def evalFilter (preds : List ℤ) (gt : List ℤ) : List ℤ × List ℤ :=
  (((preds.zip gt).filter (fun p => p.1 != -1)).map (·.1),
   ((preds.zip gt).filter (fun p => p.1 != -1)).map (·.2))

/-- Concrete instantiation of the abstract collaborators used by concrete
evaluations: log lines are naturals, encode is the identity, project casts
to ℚ, the instruction prefix has one token, decode reads the padded row
back (pads become 0), classify duplicates the hidden state. -/
def Fc : ModelFns ℕ ℕ ℚ ℚ where
  encode := fun a => a
  project := fun b => (b : ℚ)
  instr := [0]
  decode := fun r => r.map (fun o => o.getD 0)
  classify := fun d => (d, d)
  dflt := 0
  maxSeqLen := 128

end LogSentinel

namespace LogSentinel

/-- Python name: LogSentinelModel._set_trainable.  A parameter name is
abstracted by which of the four substrings tested in the source it contains
(given the module layout of the model, these are mutually consistent flags).
-/
structure ParamName where
  hasProjector : Bool
  hasClassifier : Bool
  hasLlamaModel : Bool
  hasLora : Bool
deriving DecidableEq

/-- One named parameter of the model together with its requires_grad flag. -/
structure ModelParam where
  name : ParamName
  requires_grad : Bool
deriving DecidableEq

/-- LogSentinelModel._set_trainable: every parameter is first frozen, then
re-enabled by the if / elif chain on name substrings gated by the mode
keyword arguments. -/
def set_trainable (projector classifier llama_lora : Bool)
    (ps : List ModelParam) : List ModelParam :=
  ps.map (fun p =>
    { p with requires_grad :=
        if p.name.hasProjector && projector then true
        else if p.name.hasClassifier && classifier then true
        else if p.name.hasLlamaModel && p.name.hasLora && llama_lora then true
        else false })

/-- LogSentinelModel.set_train_only_projector (phase 1 mode). -/
def set_train_only_projector : List ModelParam → List ModelParam :=
  set_trainable true false false

/-- LogSentinelModel.set_train_only_classifier (phase 2 mode). -/
def set_train_only_classifier : List ModelParam → List ModelParam :=
  set_trainable false true false

/-- LogSentinelModel.set_train_projector_and_classifier (phase 3 mode). -/
def set_train_projector_and_classifier : List ModelParam → List ModelParam :=
  set_trainable true true false

/-- LogSentinelModel.set_finetuning_all (phase 4 mode). -/
def set_finetuning_all : List ModelParam → List ModelParam :=
  set_trainable true true true

namespace TrainingController

/-- Run statuses of the data model (spec section 3). -/
inductive Status where
  | RUNNING
  | COMPLETED
  | ABORTED
  | FAILED
deriving DecidableEq

/-- Observable effects of one run, in trace order.  micro marks the start of
one micro-batch iteration (g is global_step_count after the increment of
line 81), optStep an optimizer step, report the status callback of line 107
with the reported progress fraction and loss. -/
inductive Ev where
  | micro (ph e i g : ℕ)
  | optStep (ph e i : ℕ)
  | report (ph e i g : ℕ) (progress loss : ℚ)
  | monitorStart
  | monitorStop
  | saveResourceMetrics
  | savePerfMetrics
  | saveModel
  | cleanup
  | updateStatus (s : Status)
  | callbackDone (s : Status)
deriving DecidableEq

/-- Mutable controller state threaded through the training loops:
global_step_count and batch_losses. -/
structure PhaseSt where
  gsc : ℕ
  losses : List ℚ
deriving DecidableEq

/-- Hyperparameters used by the training loop; epochs i is
n_epochs_phase(i+1) for i = 0..3. -/
structure HP where
  micro_batch_size : ℕ
  batch_size : ℕ
  epochs : ℕ → ℕ

/-- Abstract collaborators and environment outcomes of one run: whether the
fallible setup steps succeed, which phases own trainable parameters, how
many valid samples and which raw loss each micro-batch produces, and the
callback cancellation decision as a function of the global step count. -/
structure RunEnv where
  initOk : Bool
  idxRes : Except Unit (List ℕ)
  modelOk : Bool
  evalOk : Bool
  trainable : ℕ → Bool
  valid : ℕ → ℕ → ℕ → ℕ
  rawLoss : ℕ → ℕ → ℕ → ℚ
  stopAt : ℕ → Bool

/-- Number of iterations of the python loop for start_idx in
range(0, N, mbs): ceil(N / mbs) when mbs > 0; every iteration slices a
non-empty batch indexes[start : start + mbs]. -/
def numMicroBatches (N mbs : ℕ) : ℕ := (N + mbs - 1) / mbs

/-- Micro-batch loop of one epoch of _train_phase (lines 80-110): increment
global_step_count, skip degenerate batches, scale the loss by
1 / grad_accum_steps, step the optimizer every grad_accum_steps batches,
report the unscaled loss and progress, and abort when the callback answers
STOP.  Returns state, trace and False on cancellation. -/
def microLoop (env : RunEnv) (ph gas e total : ℕ) :
    List ℕ → PhaseSt → PhaseSt × List Ev × Bool
  | [], st => (st, [], true)
  | i :: rest, st =>
    let g := st.gsc + 1
    let st1 : PhaseSt := { st with gsc := g }
    if env.valid ph e i = 0 then
      let r := microLoop env ph gas e total rest st1
      (r.1, Ev.micro ph e i g :: r.2.1, r.2.2)
    else
      let raw := env.rawLoss ph e i
      let current := raw / (gas : ℚ) * (gas : ℚ)
      let progress : ℚ := if 0 < total then (g : ℚ) / (total : ℚ) else 0
      let evs1 := Ev.micro ph e i g ::
        ((if (i + 1) % gas = 0 then [Ev.optStep ph e i] else []) ++
          [Ev.report ph e i g progress current])
      let st2 : PhaseSt := { st1 with losses := st1.losses ++ [current] }
      if env.stopAt g then (st2, evs1, false)
      else
        let r := microLoop env ph gas e total rest st2
        (r.1, evs1 ++ r.2.1, r.2.2)

/-- Epoch loop of _train_phase (line 75), running epochs e0, e0 + 1, ...
while rem epochs remain and no stop was requested. -/
def epochLoop (env : RunEnv) (ph gas M total : ℕ) :
    ℕ → ℕ → PhaseSt → PhaseSt × List Ev × Bool
  | _, 0, st => (st, [], true)
  | e0, rem + 1, st =>
    let r1 := microLoop env ph gas e0 total (List.range M) st
    if r1.2.2 then
      let r2 := epochLoop env ph gas M total (e0 + 1) rem r1.1
      (r2.1, r1.2.1 ++ r2.2.1, r2.2.2)
    else r1

/-- TrainingController._train_phase: a phase with no epochs (line 53) or no
trainable parameters (line 59) is a successful no-op; otherwise run the
epoch loop over ceil(N / mbs) micro-batches per epoch. -/
def trainPhase (env : RunEnv) (ph gas mbs N epochs total : ℕ) (st : PhaseSt) :
    PhaseSt × List Ev × Bool :=
  if epochs = 0 then (st, [], true)
  else if env.trainable ph = false then (st, [], true)
  else epochLoop env ph gas (numMicroBatches N mbs) total 0 epochs st

/-- The fixed four-phase curriculum of run (lines 192-205): the loop breaks
at the first phase reporting cancellation. -/
def phasesLoop (env : RunEnv) (gas mbs N total : ℕ) :
    List (ℕ × ℕ) → PhaseSt → PhaseSt × List Ev × Bool
  | [], st => (st, [], true)
  | (ph, eps) :: rest, st =>
    let r1 := trainPhase env ph gas mbs N eps total st
    if r1.2.2 then
      let r2 := phasesLoop env gas mbs N total rest r1.1
      (r2.1, r1.2.1 ++ r2.2.1, r2.2.2)
    else r1

/-- total_training_steps (lines 186-187): sum over the four phases of
epochs * (len(base_indexes) // micro_batch_size). -/
def totalSteps (hp : HP) (N : ℕ) : ℕ :=
  ((List.range 4).map (fun i => hp.epochs i * (N / hp.micro_batch_size))).sum

/-- Outcome of one run() call: the python return value (run has no return
statement, so its caller always receives None), the final status recorded
in the run record and reported through the callback, and the effect trace.
-/
structure RunResult where
  retVal : Option Status
  final : Status
  events : List Ev
deriving DecidableEq

/-- The try block of run (lines 171-214): fail-fast setup, the four-phase
curriculum in fixed order, then evaluation, metrics persistence and model
saving only when every phase completed; any raised error maps to FAILED. -/
def tryBlock (env : RunEnv) (hp : HP) : Status × List Ev :=
  if env.initOk = false then (Status.FAILED, [])
  else
    match env.idxRes with
    | Except.error _ => (Status.FAILED, [])
    | Except.ok baseIndexes =>
      let N := baseIndexes.length
      let total := totalSteps hp N
      if env.modelOk = false then (Status.FAILED, [])
      else
        let gas := hp.batch_size / hp.micro_batch_size
        let r := phasesLoop env gas hp.micro_batch_size N total
          [(0, hp.epochs 0), (1, hp.epochs 1), (2, hp.epochs 2), (3, hp.epochs 3)]
          ⟨0, []⟩
        if r.2.2 then
          if env.evalOk then
            (Status.COMPLETED, r.2.1 ++ [Ev.savePerfMetrics, Ev.saveModel])
          else (Status.FAILED, r.2.1)
        else (Status.ABORTED, r.2.1)

/-- TrainingController.run (lines 166-232): the try block above, one except
clause mapping raised errors to FAILED, and a finally block that stops the
monitor, persists resource metrics and the final status when a run record
exists, releases all references and fires the final callback.  Python run
has no return statement, so retVal is always None. -/
def run (env : RunEnv) (hp : HP) : RunResult :=
  { retVal := none
    final := (tryBlock env hp).1
    events := Ev.monitorStart :: (tryBlock env hp).2 ++ ([Ev.monitorStop] ++
      (if env.initOk then
        [Ev.saveResourceMetrics, Ev.updateStatus (tryBlock env hp).1] else []) ++
      [Ev.cleanup, Ev.callbackDone (tryBlock env hp).1]) }

/-- Python int(): truncation toward zero on a rational. -/
def pyInt (q : ℚ) : ℤ := if 0 ≤ q then ⌊q⌋ else ⌈q⌉

/-- Oversampled index computation of run (lines 179-184).  The comparison
uses hp.get(min_less_portion, 0.5), but the body then indexes
hp[min_less_portion] directly, which raises KeyError when the key is absent
(modelled as Except.error).  extra models the np.random.choice draw of
minority indices.  At min_less_portion exactly 1 the python expression
raises ZeroDivisionError, a case no claim touches (rational division by
zero yields 0 here). -/
def computeBaseIndexes (numLess numMajority : ℕ) (extra : ℕ → List ℕ)
    (mlp : Option ℚ) : Except Unit (List ℕ) :=
  let total := numLess + numMajority
  let base := List.range total
  if 0 < numLess ∧ (numLess : ℚ) / (total : ℚ) < mlp.getD (1 / 2) then
    match mlp with
    | none => Except.error ()
    | some m =>
      let add_num : ℤ := pyInt ((m * (numMajority : ℚ)) / (1 - m)) - (numLess : ℤ)
      if 0 < add_num then Except.ok (base ++ extra add_num.toNat)
      else Except.ok base
  else Except.ok base

/-- Global step count carried by an event, when it has one (micro-batch
starts and status reports). -/
def gOf : Ev → Option ℕ
  | Ev.micro _ _ _ g => some g
  | Ev.report _ _ _ g _ _ => some g
  | _ => none

/-- All global step counts mentioned in a trace. -/
def gsOf (evs : List Ev) : List ℕ := evs.filterMap gOf

/-- Global step counts of the status reports of a trace, in order. -/
def reportGs (evs : List Ev) : List ℕ :=
  evs.filterMap (fun ev => match ev with
    | Ev.report _ _ _ g _ _ => some g
    | _ => none)

/-- Progress fractions reported to the callback, in trace order. -/
def progressOf (evs : List Ev) : List ℚ :=
  evs.filterMap (fun ev => match ev with
    | Ev.report _ _ _ _ p _ => some p
    | _ => none)

/-- Events emitted by the training loops themselves, as opposed to the
administrative events of run. -/
def isPhaseEv : Ev → Bool
  | Ev.micro _ _ _ _ => true
  | Ev.optStep _ _ _ => true
  | Ev.report _ _ _ _ _ _ => true
  | _ => false

/-- Micro-batch positions of the optimizer steps of phase ph, epoch e. -/
def stepsOf (ph e : ℕ) (evs : List Ev) : List ℕ :=
  evs.filterMap (fun ev => match ev with
    | Ev.optStep ph2 e2 i => if ph2 = ph ∧ e2 = e then some i else none
    | _ => none)

/-- Micro-batch positions and reported losses of phase ph, epoch e. -/
def lossesOf (ph e : ℕ) (evs : List Ev) : List (ℕ × ℚ) :=
  evs.filterMap (fun ev => match ev with
    | Ev.report ph2 e2 i _ _ lv => if ph2 = ph ∧ e2 = e then some (i, lv) else none
    | _ => none)

/-- Number of micro-batch iterations one phase performs when it is not
skipped: zero for a phase with no epochs or no trainable parameters. -/
def phaseBudget (env : RunEnv) (M : ℕ) (p : ℕ × ℕ) : ℕ :=
  if p.2 = 0 then 0 else if env.trainable p.1 = false then 0 else p.2 * M

/-- Micro-batch iterations of a list of phases, run back to back. -/
def plannedSteps (env : RunEnv) (M : ℕ) (phases : List (ℕ × ℕ)) : ℕ :=
  (phases.map (phaseBudget env M)).sum

/-- Concrete run environment for the overshoot counterexample: 3 training
samples, no failures, no stop requests, every micro-batch valid with raw
loss 1. -/
def envOver : RunEnv where
  initOk := true
  idxRes := Except.ok [0, 1, 2]
  modelOk := true
  evalOk := true
  trainable := fun _ => true
  valid := fun _ _ _ => 1
  rawLoss := fun _ _ _ => 1
  stopAt := fun _ => false

/-- Concrete hyperparameters for the overshoot counterexample:
micro_batch_size 2 (which does not divide the 3 samples), batch_size 2,
one epoch in phase 1 only. -/
def hpOver : HP where
  micro_batch_size := 2
  batch_size := 2
  epochs := fun i => if i = 0 then 1 else 0

/-- Like envOver but with 2 training samples, so micro_batch_size 2
divides the index count. -/
def envDvd : RunEnv where
  initOk := true
  idxRes := Except.ok [0, 1]
  modelOk := true
  evalOk := true
  trainable := fun _ => true
  valid := fun _ _ _ => 1
  rawLoss := fun _ _ _ => 1
  stopAt := fun _ => false

/-- Run environment whose callback answers STOP from global micro-batch 2
on. -/
def envReach : RunEnv where
  initOk := true
  idxRes := Except.ok [0, 1]
  modelOk := true
  evalOk := true
  trainable := fun _ => true
  valid := fun _ _ _ => 1
  rawLoss := fun _ _ _ => 1
  stopAt := fun g => decide (2 ≤ g)

/-- Hyperparameters running two epochs of phase 1 with micro-batches of
one sample. -/
def hpReach : HP where
  micro_batch_size := 1
  batch_size := 1
  epochs := fun i => if i = 0 then 2 else 0

/-- Run environment whose index computation raised (the KeyError of the
missing min_less_portion key). -/
def envErr : RunEnv where
  initOk := true
  idxRes := Except.error ()
  modelOk := true
  evalOk := true
  trainable := fun _ => true
  valid := fun _ _ _ => 1
  rawLoss := fun _ _ _ => 1
  stopAt := fun _ => false

end TrainingController

end LogSentinel

namespace LogSentinel


/-! Basic facts about the flatten / split round trip of the pipeline. -/

theorem chunked_nil {α : Type} (k : ℕ) : chunked k ([] : List α) = [] := by
  cases k with
  | zero => simp [chunked]
  | succ n => simp [chunked, Nat.div_eq_of_lt (Nat.lt_succ_self n)]

theorem chunked_cons {α : Type} (k : ℕ) (hk : 0 < k) (l : List α) (h : l ≠ []) :
    chunked k l = l.take k :: chunked k (l.drop k) := by
  have hm : 0 < l.length := List.length_pos.mpr h
  have key : (l.length + k - 1) / k = ((l.drop k).length + k - 1) / k + 1 := by
    have h1 : l.length + k - 1 = (l.length - 1) + k := by omega
    rw [h1, Nat.add_div_right _ hk, List.length_drop]
    rcases le_or_lt k l.length with hkm | hkm
    · have h5 : l.length - k + k - 1 = l.length - 1 := by omega
      rw [h5]
    · have h2 : l.length - k = 0 := by omega
      rw [h2]
      have h3 : (0 + k - 1) / k = 0 := Nat.div_eq_of_lt (by omega)
      have h4 : (l.length - 1) / k = 0 := Nat.div_eq_of_lt (by omega)
      rw [h3, h4]
  rw [chunked, chunked, key, List.range_succ_eq_map]
  simp only [List.map_cons, List.map_map, Nat.zero_mul, List.drop_zero]
  congr 1
  apply List.map_congr_left
  intro j _
  simp only [Function.comp_apply]
  congr 1
  rw [Nat.succ_mul, Nat.add_comm (j * k) k, ← List.drop_drop]

theorem chunked_flatten {α : Type} (k : ℕ) (hk : 0 < k) (l : List α) :
    (chunked k l).flatten = l := by
  have H : ∀ (n : ℕ) (l : List α), l.length = n → (chunked k l).flatten = l := by
    intro n
    induction n using Nat.strong_induction_on with
    | _ n ih =>
      intro l hn
      cases l with
      | nil => simp [chunked_nil]
      | cons x xs =>
        rw [chunked_cons k hk _ (by simp), List.flatten_cons,
          ih ((x :: xs).drop k).length ?_ _ rfl, List.take_append_drop]
        subst hn
        simp only [List.length_drop, List.length_cons]
        omega
  exact H l.length l rfl

theorem flatten_map_map {α β : Type} (f : α → β) (L : List (List α)) :
    (L.map (List.map f)).flatten = L.flatten.map f := by
  induction L with
  | nil => simp
  | cons x xs ih =>
    rw [List.map_cons, List.flatten_cons, List.flatten_cons, List.map_append, ih]

theorem scanl_add_shift (c : ℕ) (l : List ℕ) :
    l.scanl (· + ·) c = (l.scanl (· + ·) 0).map (c + ·) := by
  induction l generalizing c with
  | nil => simp
  | cons x xs ih =>
    rw [List.scanl_cons, List.scanl_cons, List.map_append]
    simp only [List.map_cons, List.map_nil, Nat.add_zero, Nat.zero_add]
    congr 1
    rw [ih (c + x), ih x, List.map_map]
    apply List.map_congr_left
    intro a _
    simp [Nat.add_assoc]

theorem splitFrom_shift {γ : Type} (x l : List γ) (prev : ℕ) (is : List ℕ) :
    splitFrom (x ++ l) (x.length + prev) (is.map (x.length + ·)) = splitFrom l prev is := by
  induction is generalizing prev with
  | nil => simp only [List.map_nil, splitFrom, List.drop_append]
  | cons i is ih =>
    simp only [List.map_cons, splitFrom, List.drop_append]
    rw [Nat.add_sub_add_left]
    exact congrArg _ (ih i)

theorem splitFrom_zero {γ : Type} (l : List γ) (is : List ℕ) :
    splitFrom l 0 is = splitAtIndices l is := by
  cases is with
  | nil => simp [splitFrom, splitAtIndices]
  | cons i is => simp [splitFrom, splitAtIndices]

theorem scanl_add_ne_nil (c : ℕ) (l : List ℕ) : l.scanl (· + ·) c ≠ [] := by
  have hl := List.length_scanl (f := (· + ·)) c l
  intro hcon
  rw [hcon] at hl
  simp at hl

theorem dropLast_scanl_zero_cons (l : List ℕ) (h : l ≠ []) :
    (l.scanl (· + ·) 0).dropLast = 0 :: ((l.scanl (· + ·) 0).dropLast).drop 1 := by
  cases l with
  | nil => exact absurd rfl h
  | cons z l2 =>
    rw [List.scanl_cons]
    simp only [List.singleton_append]
    rw [List.dropLast_cons_of_ne_nil (scanl_add_ne_nil _ _), List.drop_one, List.tail_cons]

theorem splitAtIndices_cons_shift {γ : Type} (x l : List γ) (is : List ℕ) :
    splitAtIndices (x ++ l) (x.length :: is.map (x.length + ·)) =
      x :: splitAtIndices l is := by
  rw [splitAtIndices, List.take_left, ← splitFrom_zero l is]
  exact congrArg (List.cons x) (splitFrom_shift x l 0 is)

theorem splitAtIndices_flatten {γ : Type} (LS : List (List γ)) (h : LS ≠ []) :
    splitAtIndices LS.flatten
      ((((LS.map List.length).scanl (· + ·) 0).dropLast).drop 1) = LS := by
  induction LS with
  | nil => exact absurd rfl h
  | cons x LS ih =>
    cases LS with
    | nil =>
      simp [splitAtIndices, List.scanl_cons]
    | cons y LS2 =>
      rw [List.flatten_cons, List.map_cons, List.scanl_cons]
      simp only [Nat.zero_add, List.singleton_append]
      rw [List.dropLast_cons_of_ne_nil (scanl_add_ne_nil _ _), List.drop_one, List.tail_cons]
      rw [scanl_add_shift x.length, ← List.map_dropLast]
      rw [dropLast_scanl_zero_cons _ (by simp), List.map_cons, Nat.add_zero,
        splitAtIndices_cons_shift]
      have ihr := ih (by simp)
      rw [ihr]

/-- Closed form of get_cls_embeddings: when at least one truncated line
exists, the per-sample segments are exactly the truncated samples mapped
through encoder and projector; otherwise the python function returns None.
This is the content of spec 4.3 steps 1-5: the merge / sub-batch / split
round trip loses nothing. -/
theorem get_cls_embeddings_eq {α β γ δ : Type} (F : ModelFns α β γ δ)
    (seqs : List (List α)) :
    LogSentinelModel.get_cls_embeddings F seqs =
      if (seqs.map (fun s => s.take F.maxSeqLen)).flatten.isEmpty then none
      else some ((seqs.map (fun s => s.take F.maxSeqLen)).map
        (List.map (fun a => F.project (F.encode a)))) := by
  simp only [LogSentinelModel.get_cls_embeddings, merge_data]
  cases hE : (seqs.map (fun s => s.take F.maxSeqLen)).flatten.isEmpty with
  | true => simp
  | false =>
    simp only [Bool.false_eq_true, if_false]
    congr 1
    rw [flatten_map_map, chunked_flatten 64 (by norm_num), List.map_map]
    have hmapl : ((seqs.map (fun s => s.take F.maxSeqLen)).map
        (List.map (fun a => F.project (F.encode a)))).map List.length =
        (seqs.map (fun s => s.take F.maxSeqLen)).map List.length := by
      rw [List.map_map]
      apply List.map_congr_left
      intro t _
      simp
    have hT : seqs.map (fun s => s.take F.maxSeqLen) ≠ [] := by
      intro hcon
      rw [hcon] at hE
      simp at hE
    have hTm : (seqs.map (fun s => s.take F.maxSeqLen)).map
        (List.map (fun a => F.project (F.encode a))) ≠ [] := by
      simpa using hT
    have hflat : (seqs.map (fun s => s.take F.maxSeqLen)).flatten.map
        (fun a => F.project (F.encode a)) =
        ((seqs.map (fun s => s.take F.maxSeqLen)).map
          (List.map (fun a => F.project (F.encode a)))).flatten := by
      rw [flatten_map_map]
    rw [Function.comp_def, hflat, ← hmapl]
    exact splitAtIndices_flatten _ hTm

/-! Helper lemmas about enum / filter / zip / find used to analyse the
re-insertion of surviving rows in forward. -/

theorem enum_filter_map_fst_pairwise {γ : Type} (P : ℕ × γ → Bool) (L : List γ) :
    ((L.enum.filter P).map Prod.fst).Pairwise (· < ·) := by
  have hsub : List.Sublist ((L.enum.filter P).map Prod.fst) (L.enum.map Prod.fst) :=
    (List.filter_sublist _).map _
  rw [List.enum_map_fst] at hsub
  exact List.Pairwise.sublist hsub (List.pairwise_lt_range _)

theorem mem_enum_filter_map_fst {γ : Type} (L : List γ) (P : ℕ × γ → Bool) (i : ℕ) :
    i ∈ (L.enum.filter P).map Prod.fst ↔ ∃ x, L[i]? = some x ∧ P (i, x) := by
  simp only [List.mem_map, List.mem_filter]
  constructor
  · rintro ⟨⟨i2, x⟩, ⟨hmem, hP⟩, rfl⟩
    exact ⟨x, List.mk_mem_enum_iff_getElem?.mp hmem, hP⟩
  · rintro ⟨x, hget, hP⟩
    exact ⟨(i, x), ⟨List.mk_mem_enum_iff_getElem?.mpr hget, hP⟩, rfl⟩

theorem find_zip_of_not_mem {T : Type} (idxs : List ℕ) (lg : List T) (i : ℕ)
    (h : i ∉ idxs) : (idxs.zip lg).find? (fun p => p.1 == i) = none := by
  apply List.find?_eq_none.mpr
  intro x hx
  have hx1 := (List.of_mem_zip hx).1
  simp only [beq_iff_eq, decide_eq_true_eq]
  intro hcon
  exact h (hcon ▸ hx1)

theorem find_zip_at {T : Type} (idxs : List ℕ) (lg : List T) (hnd : idxs.Nodup)
    (j : ℕ) (hj : j < idxs.length) (hl : j < lg.length) (dl : T) :
    (idxs.zip lg).find? (fun p => p.1 == idxs.getD j 0) =
      some (idxs.getD j 0, lg.getD j dl) := by
  induction idxs generalizing lg j with
  | nil => simp at hj
  | cons a rest ih =>
    cases lg with
    | nil => simp at hl
    | cons b lgrest =>
      cases j with
      | zero => simp [List.find?]
      | succ j =>
        have hgd : (a :: rest).getD (j + 1) 0 = rest.getD j 0 := by
          simp [List.getD]
        have hgd2 : (b :: lgrest).getD (j + 1) dl = lgrest.getD j dl := by
          simp [List.getD]
        rw [hgd, hgd2, List.zip_cons_cons]
        have hmem : rest.getD j 0 ∈ rest := by
          rw [List.getD_eq_getElem rest 0 (by simpa using hj)]
          exact List.getElem_mem _
        have hne : ¬ ((fun p : ℕ × T => p.1 == rest.getD j 0) (a, b)) = true := by
          simp only [beq_iff_eq]
          intro hcon
          exact (List.nodup_cons.mp hnd).1 (hcon ▸ hmem)
        have hstep : List.find? (fun p => p.1 == rest.getD j 0)
            ((a, b) :: rest.zip lgrest) =
            List.find? (fun p => p.1 == rest.getD j 0) (rest.zip lgrest) :=
          List.find?_cons_of_neg _ hne
        rw [hstep]
        exact ih lgrest (List.nodup_cons.mp hnd).2 j (by simpa using hj) (by simpa using hl)

/-- All structural facts extracted from a successful get_logits call: the
original indices are the positions of the non-empty truncated samples, in
increasing order, and there is exactly one logit row per surviving index. -/
theorem get_logits_some_spec {α β γ δ : Type} (F : ModelFns α β γ δ)
    (seqs : List (List α)) (lg : List (ℚ × ℚ)) (idxs : List ℕ)
    (h : LogSentinelModel.get_logits F seqs = some (lg, idxs)) :
    idxs = ((((seqs.map (fun s => s.take F.maxSeqLen)).map
        (List.map (fun a => F.project (F.encode a)))).enum.filter
        (fun p => ¬ p.2.isEmpty)).map Prod.fst)
    ∧ lg.length = idxs.length := by
  rw [LogSentinelModel.get_logits, get_cls_embeddings_eq] at h
  by_cases hE : (seqs.map (fun s => s.take F.maxSeqLen)).flatten.isEmpty
  · rw [if_pos hE] at h
    exact absurd h (by simp)
  · rw [if_neg hE] at h
    by_cases hV : (((seqs.map (fun s => s.take F.maxSeqLen)).map
        (List.map (fun a => F.project (F.encode a)))).enum.filter
        (fun p => ¬ p.2.isEmpty)).isEmpty
    · simp only [hV, if_pos] at h
      exact absurd h (by simp)
    · simp only [hV, if_neg, Bool.false_eq_true, not_false_eq_true] at h
      have h2 := h
      injection h2 with h3
      injection h3 with hlg hidx
      constructor
      · exact hidx.symm
      · rw [← hlg, ← hidx]
        simp [stack_and_pad_left, LogSentinelModel.sequence_lengths]

/-- C4: forward returns exactly one 2-column row per input sample.  A sample
survives exactly when its truncated log-line list is non-empty; surviving
samples receive their computed logits at their original index, every sample
with no usable embedding (in particular one with an empty log-line list)
receives the sentinel row with both classes negative infinity, and no other
row is affected. -/
theorem forward_row_placement {α β γ δ : Type} (F : ModelFns α β γ δ)
    (seqs : List (List α)) :
    (LogSentinelModel.forward F seqs).length = seqs.length
    ∧ (LogSentinelModel.get_logits F seqs = none →
        LogSentinelModel.forward F seqs = List.replicate seqs.length (⊥, ⊥))
    ∧ ∀ lg idxs, LogSentinelModel.get_logits F seqs = some (lg, idxs) →
        (∀ i, i ∈ idxs ↔ i < seqs.length ∧ (seqs.getD i []).take F.maxSeqLen ≠ [])
        ∧ (∀ i, i < seqs.length → i ∉ idxs →
            (LogSentinelModel.forward F seqs).getD i (⊥, ⊥) = (⊥, ⊥))
        ∧ (∀ j, j < idxs.length →
            (LogSentinelModel.forward F seqs).getD (idxs.getD j 0) (⊥, ⊥) =
              (((lg.getD j (0, 0)).1 : WithBot ℚ), ((lg.getD j (0, 0)).2 : WithBot ℚ))) := by
  cases hgl : LogSentinelModel.get_logits F seqs with
  | none =>
    refine ⟨by simp [LogSentinelModel.forward, hgl], fun _ => by
      simp [LogSentinelModel.forward, hgl], fun lg idxs hcon => ?_⟩
    exact absurd hcon (by simp)
  | some pr =>
    obtain ⟨lg0, idxs0⟩ := pr
    have hlenf : (LogSentinelModel.forward F seqs).length = seqs.length := by
      simp [LogSentinelModel.forward, hgl]
    refine ⟨hlenf, fun hcon => absurd hcon (by simp), fun lg idxs h => ?_⟩
    injection h with h2
    injection h2 with hlg hidxs
    subst hlg
    subst hidxs
    obtain ⟨hidx, hlen⟩ := get_logits_some_spec F seqs lg0 idxs0 hgl
    have hmem : ∀ i, i ∈ idxs0 ↔
        i < seqs.length ∧ (seqs.getD i []).take F.maxSeqLen ≠ [] := by
      intro i
      rw [hidx, mem_enum_filter_map_fst]
      rcases Nat.lt_or_ge i seqs.length with hi | hi
      · rw [List.getElem?_map, List.getElem?_map,
          (List.getElem?_eq_some_getElem_iff seqs i hi).mpr trivial]
        simp only [Option.map_some', Option.some.injEq, List.getD_eq_getElem seqs [] hi]
        constructor
        · rintro ⟨x, hx, hP⟩
          refine ⟨hi, ?_⟩
          rw [← hx] at hP
          simpa [List.isEmpty_iff, List.map_eq_nil_iff] using hP
        · rintro ⟨-, hne⟩
          exact ⟨_, rfl, by simpa [List.isEmpty_iff, List.map_eq_nil_iff] using hne⟩
      · rw [List.getElem?_map, List.getElem?_map, List.getElem?_eq_none_iff.mpr hi]
        simp only [Option.map_none']
        constructor
        · rintro ⟨x, hx, -⟩
          exact absurd hx (by simp)
        · rintro ⟨hcon, -⟩
          omega
    have hnd : idxs0.Nodup := by
      rw [hidx]
      exact (enum_filter_map_fst_pairwise _ _).imp (fun hab => Nat.ne_of_lt hab)
    have hfget : ∀ i, i < seqs.length →
        (LogSentinelModel.forward F seqs).getD i (⊥, ⊥) =
          (match (idxs0.zip lg0).find? (fun p => p.1 == i) with
            | some p => (((p.2.1 : ℚ) : WithBot ℚ), ((p.2.2 : ℚ) : WithBot ℚ))
            | none => ((⊥ : WithBot ℚ), (⊥ : WithBot ℚ))) := by
      intro i hi
      have hfwd : LogSentinelModel.forward F seqs =
          (List.range seqs.length).map (fun i =>
            match (idxs0.zip lg0).find? (fun p => p.1 == i) with
            | some p => (((p.2.1 : ℚ) : WithBot ℚ), ((p.2.2 : ℚ) : WithBot ℚ))
            | none => ((⊥ : WithBot ℚ), (⊥ : WithBot ℚ))) := by
        simp [LogSentinelModel.forward, hgl]
      rw [hfwd, List.getD_eq_getElem _ _ (by simpa using hi), List.getElem_map,
        List.getElem_range]
    refine ⟨hmem, fun i hi hnot => ?_, fun j hj => ?_⟩
    · rw [hfget i hi, find_zip_of_not_mem idxs0 lg0 i hnot]
    · have hmemj : idxs0.getD j 0 ∈ idxs0 := by
        rw [List.getD_eq_getElem idxs0 0 hj]
        exact List.getElem_mem hj
      have hij : idxs0.getD j 0 < seqs.length := ((hmem _).mp hmemj).1
      rw [hfget _ hij, find_zip_at idxs0 lg0 hnd j hj (by omega) (0, 0)]

/-- C10: for a batch with at least one surviving sample, train_helper pairs
the surviving logits with integer labels obtained from the original string
labels of the surviving indices, mapping a string to class 1 exactly when it
equals "anomalous" and to 0 for every other string (so a misspelled label is
silently treated as the normal class). -/
theorem train_helper_label_mapping {α β γ δ : Type} (F : ModelFns α β γ δ)
    (seqs : List (List α)) (labels : List String) (lg : List (ℚ × ℚ))
    (idxs : List ℕ)
    (h : LogSentinelModel.get_logits F seqs = some (lg, idxs)) :
    LogSentinelModel.train_helper F seqs labels =
      (lg, idxs.map (fun i => if labels.getD i "" = "anomalous" then 1 else 0))
    ∧ ∀ i : ℕ, ((if labels.getD i "" = "anomalous" then (1 : ℕ) else 0) = 1 ↔
        labels.getD i "" = "anomalous") := by
  constructor
  · simp only [LogSentinelModel.train_helper, h]
  · intro i
    by_cases hl : labels.getD i "" = "anomalous" <;> simp [hl]

/-- C8: after any single stager mode call, requires_grad holds exactly on
that mode's parameter groups, independently of the previous trainability
state (every parameter is first frozen); the four modes are pointwise
additive along the curriculum, phase 3 activating exactly the union of
phases 1 and 2 and phase 4 exactly phase 3 plus the decoder LoRA
parameters. -/
theorem stager_modes (ps : List ModelParam) :
    set_train_only_projector ps =
      ps.map (fun p => { p with requires_grad := p.name.hasProjector })
    ∧ set_train_only_classifier ps =
      ps.map (fun p => { p with requires_grad := p.name.hasClassifier })
    ∧ set_train_projector_and_classifier ps =
      ps.map (fun p => { p with requires_grad :=
        p.name.hasProjector || p.name.hasClassifier })
    ∧ set_finetuning_all ps =
      ps.map (fun p => { p with requires_grad :=
        p.name.hasProjector || p.name.hasClassifier ||
          (p.name.hasLlamaModel && p.name.hasLora) }) := by
  refine ⟨?_, ?_, ?_, ?_⟩ <;>
    simp only [set_train_only_projector, set_train_only_classifier,
      set_train_projector_and_classifier, set_finetuning_all, set_trainable] <;>
    · apply List.map_congr_left
      intro p _
      rcases p with ⟨⟨b1, b2, b3, b4⟩, rg⟩
      cases b1 <;> cases b2 <;> cases b3 <;> cases b4 <;> rfl

namespace TrainingController

/-- Step accounting of the micro-batch loop: global_step_count only grows,
by at most one per micro-batch, and every step count mentioned in the trace
lies strictly between the entry value and the exit value. -/
theorem microLoop_bounds (env : RunEnv) (ph gas e total : ℕ) :
    ∀ (l : List ℕ) (st : PhaseSt),
      st.gsc ≤ (microLoop env ph gas e total l st).1.gsc
      ∧ (microLoop env ph gas e total l st).1.gsc ≤ st.gsc + l.length
      ∧ ∀ g ∈ gsOf (microLoop env ph gas e total l st).2.1,
          st.gsc < g ∧ g ≤ (microLoop env ph gas e total l st).1.gsc := by
  intro l
  induction l with
  | nil => intro st; simp [microLoop, gsOf]
  | cons i rest ih =>
    intro st
    simp only [microLoop]
    by_cases hv : env.valid ph e i = 0
    · rw [if_pos hv]
      obtain ⟨ih1, ih2, ih3⟩ := ih ⟨st.gsc + 1, st.losses⟩
      simp only [gsOf] at ih1 ih2 ih3 ⊢
      refine ⟨by omega, by simp only [List.length_cons]; omega, ?_⟩
      intro g hg
      simp only [List.filterMap_cons, gOf] at hg
      rcases List.mem_cons.mp hg with hg | hg
      · subst hg; exact ⟨by omega, by omega⟩
      · obtain ⟨h1, h2⟩ := ih3 g hg
        exact ⟨by omega, h2⟩
    · rw [if_neg hv]
      by_cases hgas : (i + 1) % gas = 0
      · rw [if_pos hgas]
        by_cases hstop : env.stopAt (st.gsc + 1)
        · rw [if_pos hstop]
          dsimp only
          refine ⟨Nat.le_succ _, by simp only [List.length_cons]; omega, ?_⟩
          intro g hg
          simp only [gsOf, List.cons_append, List.nil_append, List.filterMap_cons,
            List.filterMap_append, List.filterMap_nil, gOf, List.append_nil] at hg
          simp only [List.mem_cons, List.not_mem_nil, or_false] at hg
          rcases hg with hg | hg <;> (subst hg; exact ⟨by omega, by omega⟩)
        · rw [if_neg hstop]
          obtain ⟨ih1, ih2, ih3⟩ := ih
            ⟨st.gsc + 1, st.losses ++ [env.rawLoss ph e i / (gas : ℚ) * (gas : ℚ)]⟩
          dsimp only
          simp only [gsOf] at ih1 ih2 ih3 ⊢
          refine ⟨by omega, by simp only [List.length_cons]; omega, ?_⟩
          intro g hg
          simp only [List.cons_append, List.nil_append, List.filterMap_cons,
            List.filterMap_append, List.filterMap_nil, gOf, List.append_nil] at hg
          simp only [List.mem_cons] at hg
          rcases hg with hg | hg | hg
          · subst hg; exact ⟨by omega, by omega⟩
          · subst hg; exact ⟨by omega, by omega⟩
          · obtain ⟨h1, h2⟩ := ih3 g hg
            exact ⟨by omega, h2⟩
      · rw [if_neg hgas]
        by_cases hstop : env.stopAt (st.gsc + 1)
        · rw [if_pos hstop]
          dsimp only
          refine ⟨Nat.le_succ _, by simp only [List.length_cons]; omega, ?_⟩
          intro g hg
          simp only [gsOf, List.cons_append, List.nil_append, List.filterMap_cons,
            List.filterMap_append, List.filterMap_nil, gOf, List.append_nil] at hg
          simp only [List.mem_cons, List.not_mem_nil, or_false] at hg
          rcases hg with hg | hg <;> (subst hg; exact ⟨by omega, by omega⟩)
        · rw [if_neg hstop]
          obtain ⟨ih1, ih2, ih3⟩ := ih
            ⟨st.gsc + 1, st.losses ++ [env.rawLoss ph e i / (gas : ℚ) * (gas : ℚ)]⟩
          dsimp only
          simp only [gsOf] at ih1 ih2 ih3 ⊢
          refine ⟨by omega, by simp only [List.length_cons]; omega, ?_⟩
          intro g hg
          simp only [List.cons_append, List.nil_append, List.filterMap_cons,
            List.filterMap_append, List.filterMap_nil, gOf, List.append_nil] at hg
          simp only [List.mem_cons] at hg
          rcases hg with hg | hg | hg
          · subst hg; exact ⟨by omega, by omega⟩
          · subst hg; exact ⟨by omega, by omega⟩
          · obtain ⟨h1, h2⟩ := ih3 g hg
            exact ⟨by omega, h2⟩

/-- Membership in the three events a single processed micro-batch emits. -/
theorem mem_batchEvs {ev : Ev} {ph e i g : ℕ} {c : Prop} [Decidable c] {p lv : ℚ}
    (h : ev ∈ Ev.micro ph e i g ::
      ((if c then [Ev.optStep ph e i] else []) ++ [Ev.report ph e i g p lv])) :
    ev = Ev.micro ph e i g ∨ ev = Ev.optStep ph e i ∨
      ev = Ev.report ph e i g p lv := by
  by_cases hc : c <;> simp only [hc, if_pos, if_neg, not_false_eq_true,
    List.cons_append, List.nil_append, List.mem_cons, List.mem_singleton,
    List.not_mem_nil, or_false] at h <;> tauto

/-- The micro-batch loop emits only phase events (micro-batch starts,
optimizer steps, status reports). -/
theorem microLoop_phaseOnly (env : RunEnv) (ph gas e total : ℕ) :
    ∀ (l : List ℕ) (st : PhaseSt),
      ∀ ev ∈ (microLoop env ph gas e total l st).2.1, isPhaseEv ev = true := by
  intro l
  induction l with
  | nil => intro st ev hev; simp [microLoop] at hev
  | cons i rest ih =>
    intro st ev hev
    simp only [microLoop] at hev
    by_cases hv : env.valid ph e i = 0
    · rw [if_pos hv] at hev
      rcases List.mem_cons.mp hev with hev | hev
      · subst hev; rfl
      · exact ih _ ev hev
    · rw [if_neg hv] at hev
      by_cases hstop : env.stopAt (st.gsc + 1)
      · rw [if_pos hstop] at hev
        rcases mem_batchEvs hev with hev | hev | hev <;> (subst hev; rfl)
      · rw [if_neg hstop] at hev
        rcases List.mem_append.mp hev with hev | hev
        · rcases mem_batchEvs hev with hev | hev | hev <;> (subst hev; rfl)
        · exact ih _ ev hev

/-- Every status report of the micro-batch loop belongs to the running
phase and epoch, reports progress global_step_count / total_training_steps
(or 0 when the step budget is 0), and reports the loss
raw / grad_accum_steps * grad_accum_steps of its own micro-batch. -/
theorem microLoop_reportShape (env : RunEnv) (ph gas e total : ℕ) :
    ∀ (l : List ℕ) (st : PhaseSt),
      ∀ ph2 e2 i g p lv, Ev.report ph2 e2 i g p lv ∈
          (microLoop env ph gas e total l st).2.1 →
        ph2 = ph ∧ e2 = e
        ∧ p = (if 0 < total then (g : ℚ) / (total : ℚ) else 0)
        ∧ lv = env.rawLoss ph e i / (gas : ℚ) * (gas : ℚ) := by
  intro l
  induction l with
  | nil => intro st ph2 e2 i g p lv hev; simp [microLoop] at hev
  | cons i0 rest ih =>
    intro st ph2 e2 i g p lv hev
    simp only [microLoop] at hev
    by_cases hv : env.valid ph e i0 = 0
    · rw [if_pos hv] at hev
      rcases List.mem_cons.mp hev with hev | hev
      · simp at hev
      · exact ih _ _ _ _ _ _ _ hev
    · rw [if_neg hv] at hev
      by_cases hstop : env.stopAt (st.gsc + 1)
      · rw [if_pos hstop] at hev
        rcases mem_batchEvs hev with hev | hev | hev
        · simp at hev
        · simp at hev
        · injection hev with h1 h2 h3 h4 h5 h6
          subst h1; subst h2; subst h3; subst h4; subst h5; subst h6
          exact ⟨rfl, rfl, rfl, rfl⟩
      · rw [if_neg hstop] at hev
        rcases List.mem_append.mp hev with hev | hev
        · rcases mem_batchEvs hev with hev | hev | hev
          · simp at hev
          · simp at hev
          · injection hev with h1 h2 h3 h4 h5 h6
            subst h1; subst h2; subst h3; subst h4; subst h5; subst h6
            exact ⟨rfl, rfl, rfl, rfl⟩
        · exact ih _ _ _ _ _ _ _ hev

/-- Without a stop request the micro-batch loop finishes the whole batch
list and increments global_step_count once per micro-batch. -/
theorem microLoop_noStop (env : RunEnv) (ph gas e total : ℕ)
    (hs : ∀ g, env.stopAt g = false) :
    ∀ (l : List ℕ) (st : PhaseSt),
      (microLoop env ph gas e total l st).2.2 = true
      ∧ (microLoop env ph gas e total l st).1.gsc = st.gsc + l.length := by
  intro l
  induction l with
  | nil => intro st; simp [microLoop]
  | cons i rest ih =>
    intro st
    simp only [microLoop]
    by_cases hv : env.valid ph e i = 0
    · rw [if_pos hv]
      obtain ⟨ih1, ih2⟩ := ih ⟨st.gsc + 1, st.losses⟩
      refine ⟨ih1, ?_⟩
      rw [ih2]
      simp only [List.length_cons]
      omega
    · rw [if_neg hv]
      rw [if_neg (by rw [hs (st.gsc + 1)]; exact Bool.false_ne_true)]
      obtain ⟨ih1, ih2⟩ := ih
        ⟨st.gsc + 1, st.losses ++ [env.rawLoss ph e i / (gas : ℚ) * (gas : ℚ)]⟩
      refine ⟨ih1, ?_⟩
      rw [ih2]
      simp only [List.length_cons]
      omega

theorem reportGs_append (l1 l2 : List Ev) :
    reportGs (l1 ++ l2) = reportGs l1 ++ reportGs l2 := by
  simp [reportGs]

theorem stepsOf_append (ph e : ℕ) (l1 l2 : List Ev) :
    stepsOf ph e (l1 ++ l2) = stepsOf ph e l1 ++ stepsOf ph e l2 := by
  simp [stepsOf]

theorem lossesOf_append (ph e : ℕ) (l1 l2 : List Ev) :
    lossesOf ph e (l1 ++ l2) = lossesOf ph e l1 ++ lossesOf ph e l2 := by
  simp [lossesOf]

theorem progressOf_append (l1 l2 : List Ev) :
    progressOf (l1 ++ l2) = progressOf l1 ++ progressOf l2 := by
  simp [progressOf]

theorem reportGs_batchEvs (ph e i g : ℕ) (c : Prop) [Decidable c] (p lv : ℚ) :
    reportGs (Ev.micro ph e i g ::
      ((if c then [Ev.optStep ph e i] else []) ++ [Ev.report ph e i g p lv])) =
      [g] := by
  by_cases hc : c <;> simp [hc, reportGs]

theorem stepsOf_batchEvs (ph e i g ph2 e2 : ℕ) (c : Prop) [Decidable c] (p lv : ℚ) :
    stepsOf ph2 e2 (Ev.micro ph e i g ::
      ((if c then [Ev.optStep ph e i] else []) ++ [Ev.report ph e i g p lv])) =
      if c then (if ph = ph2 ∧ e = e2 then [i] else []) else [] := by
  by_cases hc : c <;> by_cases hm : ph = ph2 ∧ e = e2 <;>
    simp [hc, hm, stepsOf]

theorem lossesOf_batchEvs (ph e i g ph2 e2 : ℕ) (c : Prop) [Decidable c] (p lv : ℚ) :
    lossesOf ph2 e2 (Ev.micro ph e i g ::
      ((if c then [Ev.optStep ph e i] else []) ++ [Ev.report ph e i g p lv])) =
      if ph = ph2 ∧ e = e2 then [(i, lv)] else [] := by
  by_cases hc : c <;> by_cases hm : ph = ph2 ∧ e = e2 <;>
    simp [hc, hm, lossesOf]

theorem reportGs_micro_cons (ph e i g : ℕ) (tl : List Ev) :
    reportGs (Ev.micro ph e i g :: tl) = reportGs tl := by
  simp [reportGs]

theorem stepsOf_micro_cons (ph2 e2 ph e i g : ℕ) (tl : List Ev) :
    stepsOf ph2 e2 (Ev.micro ph e i g :: tl) = stepsOf ph2 e2 tl := by
  simp [stepsOf]

theorem lossesOf_micro_cons (ph2 e2 ph e i g : ℕ) (tl : List Ev) :
    lossesOf ph2 e2 (Ev.micro ph e i g :: tl) = lossesOf ph2 e2 tl := by
  simp [lossesOf]

theorem mem_reportGs_mem_gsOf {x : ℕ} {evs : List Ev} (h : x ∈ reportGs evs) :
    x ∈ gsOf evs := by
  simp only [reportGs, List.mem_filterMap] at h
  obtain ⟨ev, hev, hx⟩ := h
  simp only [gsOf, List.mem_filterMap]
  refine ⟨ev, hev, ?_⟩
  cases ev <;> simp_all [gOf]

/-- Reported step counts of one epoch loop are strictly increasing. -/
theorem microLoop_reportGs_pairwise (env : RunEnv) (ph gas e total : ℕ) :
    ∀ (l : List ℕ) (st : PhaseSt),
      (reportGs (microLoop env ph gas e total l st).2.1).Pairwise (· < ·) := by
  intro l
  induction l with
  | nil => intro st; simp [microLoop, reportGs]
  | cons i rest ih =>
    intro st
    simp only [microLoop]
    by_cases hv : env.valid ph e i = 0
    · rw [if_pos hv]
      dsimp only
      rw [reportGs_micro_cons]
      exact ih _
    · rw [if_neg hv]
      by_cases hstop : env.stopAt (st.gsc + 1)
      · rw [if_pos hstop]
        dsimp only
        rw [reportGs_batchEvs]
        exact List.pairwise_singleton _ _
      · rw [if_neg hstop]
        dsimp only
        rw [show (Ev.micro ph e i (st.gsc + 1) ::
            ((if (i + 1) % gas = 0 then [Ev.optStep ph e i] else []) ++
              [Ev.report ph e i (st.gsc + 1)
                (if 0 < total then ((st.gsc + 1 : ℕ) : ℚ) / (total : ℚ) else 0)
                (env.rawLoss ph e i / (gas : ℚ) * (gas : ℚ))])) ++
            (microLoop env ph gas e total rest
              ⟨st.gsc + 1, st.losses ++
                [env.rawLoss ph e i / (gas : ℚ) * (gas : ℚ)]⟩).2.1 =
          (Ev.micro ph e i (st.gsc + 1) ::
            ((if (i + 1) % gas = 0 then [Ev.optStep ph e i] else []) ++
              [Ev.report ph e i (st.gsc + 1)
                (if 0 < total then ((st.gsc + 1 : ℕ) : ℚ) / (total : ℚ) else 0)
                (env.rawLoss ph e i / (gas : ℚ) * (gas : ℚ))])) ++
            (microLoop env ph gas e total rest
              ⟨st.gsc + 1, st.losses ++
                [env.rawLoss ph e i / (gas : ℚ) * (gas : ℚ)]⟩).2.1 from rfl,
          reportGs_append, reportGs_batchEvs]
        rw [List.singleton_append, List.pairwise_cons]
        refine ⟨?_, ih _⟩
        intro b hb
        have hbg := mem_reportGs_mem_gsOf hb
        have hbound := (microLoop_bounds env ph gas e total rest
          ⟨st.gsc + 1, st.losses ++
            [env.rawLoss ph e i / (gas : ℚ) * (gas : ℚ)]⟩).2.2 b hbg
        exact hbound.1

/-- With no stop request and no degenerate batch, the optimizer steps of
one epoch loop are exactly the micro-batches i with (i + 1) divisible by
grad_accum_steps, for the running phase and epoch, and no others. -/
theorem microLoop_steps (env : RunEnv) (ph gas e total : ℕ)
    (hs : ∀ g, env.stopAt g = false) (hv : ∀ i, env.valid ph e i ≠ 0) :
    ∀ (l : List ℕ) (st : PhaseSt) (ph2 e2 : ℕ),
      stepsOf ph2 e2 (microLoop env ph gas e total l st).2.1 =
        if ph = ph2 ∧ e = e2 then l.filter (fun i => (i + 1) % gas = 0)
        else [] := by
  intro l
  induction l with
  | nil =>
    intro st ph2 e2
    by_cases hm : ph = ph2 ∧ e = e2 <;> simp [hm, microLoop, stepsOf]
  | cons i rest ih =>
    intro st ph2 e2
    simp only [microLoop]
    rw [if_neg (hv i)]
    rw [if_neg (by rw [hs (st.gsc + 1)]; exact Bool.false_ne_true)]
    dsimp only
    rw [stepsOf_append, stepsOf_batchEvs, ih _ ph2 e2]
    by_cases hm : ph = ph2 ∧ e = e2 <;> by_cases hgas : (i + 1) % gas = 0 <;>
      simp [hm, hgas, List.filter_cons]

/-- With no stop request and no degenerate batch, one epoch loop reports
exactly one loss per micro-batch, in order, equal to
raw / grad_accum_steps * grad_accum_steps. -/
theorem microLoop_losses (env : RunEnv) (ph gas e total : ℕ)
    (hs : ∀ g, env.stopAt g = false) (hv : ∀ i, env.valid ph e i ≠ 0) :
    ∀ (l : List ℕ) (st : PhaseSt) (ph2 e2 : ℕ),
      lossesOf ph2 e2 (microLoop env ph gas e total l st).2.1 =
        if ph = ph2 ∧ e = e2 then
          l.map (fun i => (i, env.rawLoss ph e i / (gas : ℚ) * (gas : ℚ)))
        else [] := by
  intro l
  induction l with
  | nil =>
    intro st ph2 e2
    by_cases hm : ph = ph2 ∧ e = e2 <;> simp [hm, microLoop, lossesOf]
  | cons i rest ih =>
    intro st ph2 e2
    simp only [microLoop]
    rw [if_neg (hv i)]
    rw [if_neg (by rw [hs (st.gsc + 1)]; exact Bool.false_ne_true)]
    dsimp only
    rw [lossesOf_append, lossesOf_batchEvs, ih _ ph2 e2]
    by_cases hm : ph = ph2 ∧ e = e2 <;> simp [hm]

/-- Cancellation reach of one epoch loop: when the callback answers STOP
from global step k on, and every micro-batch has valid samples (so the
callback is consulted after every micro-batch), the loop stops exactly at
step count k if it gets that far, and otherwise finishes the epoch. -/
theorem microLoop_stopReach (env : RunEnv) (ph gas e total k : ℕ)
    (hv : ∀ ph0 e0 i, env.valid ph0 e0 i ≠ 0)
    (hs : ∀ g, env.stopAt g = decide (k ≤ g)) :
    ∀ (l : List ℕ) (st : PhaseSt), st.gsc < k →
      (if k ≤ st.gsc + l.length
       then (microLoop env ph gas e total l st).2.2 = false
         ∧ (microLoop env ph gas e total l st).1.gsc = k
       else (microLoop env ph gas e total l st).2.2 = true
         ∧ (microLoop env ph gas e total l st).1.gsc = st.gsc + l.length) := by
  intro l
  induction l with
  | nil =>
    intro st hlt
    rw [if_neg (by simp; omega)]
    simp [microLoop]
  | cons i rest ih =>
    intro st hlt
    simp only [microLoop]
    rw [if_neg (hv ph e i)]
    by_cases hk : k ≤ st.gsc + 1
    · rw [if_pos (show k ≤ st.gsc + (i :: rest).length by
        simp only [List.length_cons]; omega)]
      rw [if_pos (show env.stopAt (st.gsc + 1) = true by
        rw [hs (st.gsc + 1)]; exact decide_eq_true hk)]
      dsimp only
      exact ⟨rfl, by omega⟩
    · have hstopf : ¬ (env.stopAt (st.gsc + 1) = true) := by
        rw [hs (st.gsc + 1)]
        simp
        omega
      have hlt2 : st.gsc + 1 < k := by omega
      have ihx := ih ⟨st.gsc + 1, st.losses ++
        [env.rawLoss ph e i / (gas : ℚ) * (gas : ℚ)]⟩ hlt2
      dsimp only at ihx
      by_cases houter : k ≤ st.gsc + (i :: rest).length
      · rw [if_pos houter, if_neg hstopf]
        dsimp only
        rw [if_pos (by simp only [List.length_cons] at houter; omega)] at ihx
        exact ihx
      · rw [if_neg houter, if_neg hstopf]
        dsimp only
        rw [if_neg (by simp only [List.length_cons] at houter; omega)] at ihx
        refine ⟨ihx.1, ?_⟩
        rw [ihx.2]
        simp only [List.length_cons]
        omega

/-- Step accounting of the epoch loop. -/
theorem epochLoop_bounds (env : RunEnv) (ph gas M total : ℕ) :
    ∀ (rem e0 : ℕ) (st : PhaseSt),
      st.gsc ≤ (epochLoop env ph gas M total e0 rem st).1.gsc
      ∧ (epochLoop env ph gas M total e0 rem st).1.gsc ≤ st.gsc + rem * M
      ∧ ∀ g ∈ gsOf (epochLoop env ph gas M total e0 rem st).2.1,
          st.gsc < g ∧ g ≤ (epochLoop env ph gas M total e0 rem st).1.gsc := by
  intro rem
  induction rem with
  | zero => intro e0 st; simp [epochLoop, gsOf]
  | succ rem ih =>
    intro e0 st
    simp only [epochLoop]
    obtain ⟨m1, m2, m3⟩ := microLoop_bounds env ph gas e0 total (List.range M) st
    by_cases hok : (microLoop env ph gas e0 total (List.range M) st).2.2 = true
    · rw [if_pos hok]
      obtain ⟨i1, i2, i3⟩ := ih (e0 + 1) (microLoop env ph gas e0 total (List.range M) st).1
      dsimp only
      refine ⟨by omega, by simp only [List.length_range] at m2; rw [Nat.succ_mul]; omega, ?_⟩
      intro g hg
      rw [gsOf, List.filterMap_append, ← gsOf, ← gsOf] at hg
      rcases List.mem_append.mp hg with hg | hg
      · obtain ⟨h1, h2⟩ := m3 g hg
        exact ⟨h1, by omega⟩
      · obtain ⟨h1, h2⟩ := i3 g hg
        exact ⟨by omega, h2⟩
    · rw [if_neg hok]
      simp only [List.length_range] at m2
      refine ⟨m1, by rw [Nat.succ_mul]; omega, ?_⟩
      intro g hg
      exact m3 g hg

/-- The epoch loop emits only phase events. -/
theorem epochLoop_phaseOnly (env : RunEnv) (ph gas M total : ℕ) :
    ∀ (rem e0 : ℕ) (st : PhaseSt),
      ∀ ev ∈ (epochLoop env ph gas M total e0 rem st).2.1, isPhaseEv ev = true := by
  intro rem
  induction rem with
  | zero => intro e0 st ev hev; simp [epochLoop] at hev
  | succ rem ih =>
    intro e0 st ev hev
    simp only [epochLoop] at hev
    by_cases hok : (microLoop env ph gas e0 total (List.range M) st).2.2 = true
    · rw [if_pos hok] at hev
      rcases List.mem_append.mp hev with hev | hev
      · exact microLoop_phaseOnly env ph gas e0 total _ _ ev hev
      · exact ih _ _ ev hev
    · rw [if_neg hok] at hev
      exact microLoop_phaseOnly env ph gas e0 total _ _ ev hev

/-- Every progress fraction reported by the epoch loop is
global_step_count / total_training_steps (or 0 when the budget is 0). -/
theorem epochLoop_reportShape (env : RunEnv) (ph gas M total : ℕ) :
    ∀ (rem e0 : ℕ) (st : PhaseSt),
      ∀ ph2 e2 i g p lv, Ev.report ph2 e2 i g p lv ∈
          (epochLoop env ph gas M total e0 rem st).2.1 →
        p = (if 0 < total then (g : ℚ) / (total : ℚ) else 0) := by
  intro rem
  induction rem with
  | zero => intro e0 st ph2 e2 i g p lv hev; simp [epochLoop] at hev
  | succ rem ih =>
    intro e0 st ph2 e2 i g p lv hev
    simp only [epochLoop] at hev
    by_cases hok : (microLoop env ph gas e0 total (List.range M) st).2.2 = true
    · rw [if_pos hok] at hev
      rcases List.mem_append.mp hev with hev | hev
      · exact (microLoop_reportShape env ph gas e0 total _ _ _ _ _ _ _ _ hev).2.2.1
      · exact ih _ _ _ _ _ _ _ _ hev
    · rw [if_neg hok] at hev
      exact (microLoop_reportShape env ph gas e0 total _ _ _ _ _ _ _ _ hev).2.2.1

/-- Reported step counts of the epoch loop are strictly increasing. -/
theorem epochLoop_reportGs_pairwise (env : RunEnv) (ph gas M total : ℕ) :
    ∀ (rem e0 : ℕ) (st : PhaseSt),
      (reportGs (epochLoop env ph gas M total e0 rem st).2.1).Pairwise (· < ·) := by
  intro rem
  induction rem with
  | zero => intro e0 st; simp [epochLoop, reportGs]
  | succ rem ih =>
    intro e0 st
    simp only [epochLoop]
    by_cases hok : (microLoop env ph gas e0 total (List.range M) st).2.2 = true
    · rw [if_pos hok]
      dsimp only
      rw [reportGs_append, List.pairwise_append]
      refine ⟨microLoop_reportGs_pairwise env ph gas e0 total _ _, ih _ _, ?_⟩
      intro a ha b hb
      obtain ⟨m1, m2, m3⟩ := microLoop_bounds env ph gas e0 total (List.range M) st
      obtain ⟨i1, i2, i3⟩ := epochLoop_bounds env ph gas M total rem (e0 + 1)
        (microLoop env ph gas e0 total (List.range M) st).1
      obtain ⟨ha1, ha2⟩ := m3 a (mem_reportGs_mem_gsOf ha)
      obtain ⟨hb1, hb2⟩ := i3 b (mem_reportGs_mem_gsOf hb)
      omega
    · rw [if_neg hok]
      exact microLoop_reportGs_pairwise env ph gas e0 total _ _

/-- Without a stop request the epoch loop runs all its epochs, M
micro-batches each. -/
theorem epochLoop_noStop (env : RunEnv) (ph gas M total : ℕ)
    (hs : ∀ g, env.stopAt g = false) :
    ∀ (rem e0 : ℕ) (st : PhaseSt),
      (epochLoop env ph gas M total e0 rem st).2.2 = true
      ∧ (epochLoop env ph gas M total e0 rem st).1.gsc = st.gsc + rem * M := by
  intro rem
  induction rem with
  | zero => intro e0 st; simp [epochLoop]
  | succ rem ih =>
    intro e0 st
    simp only [epochLoop]
    obtain ⟨m1, m2⟩ := microLoop_noStop env ph gas e0 total hs (List.range M) st
    rw [if_pos m1]
    obtain ⟨i1, i2⟩ := ih (e0 + 1) (microLoop env ph gas e0 total (List.range M) st).1
    refine ⟨i1, ?_⟩
    dsimp only
    rw [i2, m2]
    simp only [List.length_range]
    rw [Nat.succ_mul]
    omega

/-- With no stop request and no degenerate batch, the optimizer steps of
the epoch loop land exactly in its own phase and epochs, once per
grad_accum_steps micro-batches within each epoch. -/
theorem epochLoop_steps (env : RunEnv) (ph gas M total : ℕ)
    (hs : ∀ g, env.stopAt g = false) (hv : ∀ e i, env.valid ph e i ≠ 0) :
    ∀ (rem e0 : ℕ) (st : PhaseSt) (ph2 e2 : ℕ),
      stepsOf ph2 e2 (epochLoop env ph gas M total e0 rem st).2.1 =
        if ph = ph2 ∧ e0 ≤ e2 ∧ e2 < e0 + rem then
          (List.range M).filter (fun i => (i + 1) % gas = 0)
        else [] := by
  intro rem
  induction rem with
  | zero =>
    intro e0 st ph2 e2
    rw [if_neg (by omega)]
    simp [epochLoop, stepsOf]
  | succ rem ih =>
    intro e0 st ph2 e2
    simp only [epochLoop]
    obtain ⟨m1, m2⟩ := microLoop_noStop env ph gas e0 total hs (List.range M) st
    rw [if_pos m1]
    dsimp only
    rw [stepsOf_append, microLoop_steps env ph gas e0 total hs (hv e0) _ _ ph2 e2,
      ih (e0 + 1) _ ph2 e2]
    by_cases h1 : ph = ph2 ∧ e0 = e2
    · rcases h1 with ⟨hpe, hee⟩
      subst hee
      rw [if_pos ⟨hpe, rfl⟩, if_neg (by omega), if_pos ⟨hpe, by omega, by omega⟩]
      simp
    · by_cases h2 : ph = ph2 ∧ e0 + 1 ≤ e2 ∧ e2 < e0 + 1 + rem
      · rw [if_neg h1, if_pos h2, if_pos ⟨h2.1, by omega, by omega⟩]
        simp
      · rw [if_neg h1, if_neg h2, if_neg (by omega)]
        simp

/-- With no stop request and no degenerate batch, the epoch loop reports
exactly one loss per micro-batch per epoch, in order, equal to the
unscaled raw loss of that micro-batch. -/
theorem epochLoop_losses (env : RunEnv) (ph gas M total : ℕ)
    (hs : ∀ g, env.stopAt g = false) (hv : ∀ e i, env.valid ph e i ≠ 0) :
    ∀ (rem e0 : ℕ) (st : PhaseSt) (ph2 e2 : ℕ),
      lossesOf ph2 e2 (epochLoop env ph gas M total e0 rem st).2.1 =
        if ph = ph2 ∧ e0 ≤ e2 ∧ e2 < e0 + rem then
          (List.range M).map
            (fun i => (i, env.rawLoss ph e2 i / (gas : ℚ) * (gas : ℚ)))
        else [] := by
  intro rem
  induction rem with
  | zero =>
    intro e0 st ph2 e2
    rw [if_neg (by omega)]
    simp [epochLoop, lossesOf]
  | succ rem ih =>
    intro e0 st ph2 e2
    simp only [epochLoop]
    obtain ⟨m1, m2⟩ := microLoop_noStop env ph gas e0 total hs (List.range M) st
    rw [if_pos m1]
    dsimp only
    rw [lossesOf_append, microLoop_losses env ph gas e0 total hs (hv e0) _ _ ph2 e2,
      ih (e0 + 1) _ ph2 e2]
    by_cases h1 : ph = ph2 ∧ e0 = e2
    · rcases h1 with ⟨hpe, hee⟩
      subst hee
      rw [if_pos ⟨hpe, rfl⟩, if_neg (by omega), if_pos ⟨hpe, by omega, by omega⟩]
      simp
    · by_cases h2 : ph = ph2 ∧ e0 + 1 ≤ e2 ∧ e2 < e0 + 1 + rem
      · rw [if_neg h1, if_pos h2, if_pos ⟨h2.1, by omega, by omega⟩]
        simp
      · rw [if_neg h1, if_neg h2, if_neg (by omega)]
        simp

/-- Cancellation reach of the epoch loop. -/
theorem epochLoop_stopReach (env : RunEnv) (ph gas M total k : ℕ)
    (hv : ∀ ph0 e0 i, env.valid ph0 e0 i ≠ 0)
    (hs : ∀ g, env.stopAt g = decide (k ≤ g)) :
    ∀ (rem e0 : ℕ) (st : PhaseSt), st.gsc < k →
      (if k ≤ st.gsc + rem * M
       then (epochLoop env ph gas M total e0 rem st).2.2 = false
         ∧ (epochLoop env ph gas M total e0 rem st).1.gsc = k
       else (epochLoop env ph gas M total e0 rem st).2.2 = true
         ∧ (epochLoop env ph gas M total e0 rem st).1.gsc = st.gsc + rem * M) := by
  intro rem
  induction rem with
  | zero =>
    intro e0 st hlt
    rw [if_neg (by omega)]
    simp [epochLoop]
  | succ rem ih =>
    intro e0 st hlt
    simp only [epochLoop]
    have hmicro := microLoop_stopReach env ph gas e0 total k hv hs (List.range M) st hlt
    simp only [List.length_range] at hmicro
    have hmul : (rem + 1) * M = rem * M + M := by rw [Nat.succ_mul]
    by_cases hk1 : k ≤ st.gsc + M
    · rw [if_pos hk1] at hmicro
      rw [if_pos (show k ≤ st.gsc + (rem + 1) * M by omega)]
      rw [if_neg (show ¬ ((microLoop env ph gas e0 total
          (List.range M) st).2.2 = true) by
        rw [hmicro.1]; exact Bool.false_ne_true)]
      exact hmicro
    · rw [if_neg hk1] at hmicro
      rw [if_pos hmicro.1]
      have hlt2 : (microLoop env ph gas e0 total (List.range M) st).1.gsc < k := by
        rw [hmicro.2]; omega
      have ihx := ih (e0 + 1) (microLoop env ph gas e0 total (List.range M) st).1 hlt2
      dsimp only
      by_cases hk2 : k ≤ st.gsc + (rem + 1) * M
      · rw [if_pos hk2]
        rw [if_pos (show k ≤ (microLoop env ph gas e0 total
            (List.range M) st).1.gsc + rem * M by rw [hmicro.2]; omega)] at ihx
        exact ihx
      · rw [if_neg hk2]
        rw [if_neg (show ¬ k ≤ (microLoop env ph gas e0 total
            (List.range M) st).1.gsc + rem * M by rw [hmicro.2]; omega)] at ihx
        refine ⟨ihx.1, ?_⟩
        rw [ihx.2, hmicro.2]
        omega

/-- Step accounting of one phase. -/
theorem trainPhase_bounds (env : RunEnv) (ph gas mbs N epochs total : ℕ)
    (st : PhaseSt) :
    st.gsc ≤ (trainPhase env ph gas mbs N epochs total st).1.gsc
    ∧ (trainPhase env ph gas mbs N epochs total st).1.gsc ≤
        st.gsc + phaseBudget env (numMicroBatches N mbs) (ph, epochs)
    ∧ ∀ g ∈ gsOf (trainPhase env ph gas mbs N epochs total st).2.1,
        st.gsc < g ∧ g ≤ (trainPhase env ph gas mbs N epochs total st).1.gsc := by
  rw [trainPhase, phaseBudget]
  by_cases h0 : epochs = 0
  · rw [if_pos h0, if_pos h0]
    simp [gsOf]
  · rw [if_neg h0, if_neg h0]
    by_cases htr : env.trainable ph = false
    · rw [if_pos htr, if_pos htr]
      simp [gsOf]
    · rw [if_neg htr, if_neg htr]
      exact epochLoop_bounds env ph gas (numMicroBatches N mbs) total epochs 0 st

/-- One phase emits only phase events. -/
theorem trainPhase_phaseOnly (env : RunEnv) (ph gas mbs N epochs total : ℕ)
    (st : PhaseSt) :
    ∀ ev ∈ (trainPhase env ph gas mbs N epochs total st).2.1,
      isPhaseEv ev = true := by
  rw [trainPhase]
  by_cases h0 : epochs = 0
  · rw [if_pos h0]; intro ev hev; simp at hev
  · rw [if_neg h0]
    by_cases htr : env.trainable ph = false
    · rw [if_pos htr]; intro ev hev; simp at hev
    · rw [if_neg htr]
      exact epochLoop_phaseOnly env ph gas (numMicroBatches N mbs) total epochs 0 st

/-- Every progress fraction reported by one phase is
global_step_count / total_training_steps (or 0 when the budget is 0). -/
theorem trainPhase_reportShape (env : RunEnv) (ph gas mbs N epochs total : ℕ)
    (st : PhaseSt) :
    ∀ ph2 e2 i g p lv, Ev.report ph2 e2 i g p lv ∈
        (trainPhase env ph gas mbs N epochs total st).2.1 →
      p = (if 0 < total then (g : ℚ) / (total : ℚ) else 0) := by
  rw [trainPhase]
  by_cases h0 : epochs = 0
  · rw [if_pos h0]; intro ph2 e2 i g p lv hev; simp at hev
  · rw [if_neg h0]
    by_cases htr : env.trainable ph = false
    · rw [if_pos htr]; intro ph2 e2 i g p lv hev; simp at hev
    · rw [if_neg htr]
      exact epochLoop_reportShape env ph gas (numMicroBatches N mbs) total epochs 0 st

/-- Reported step counts of one phase are strictly increasing. -/
theorem trainPhase_reportGs_pairwise (env : RunEnv)
    (ph gas mbs N epochs total : ℕ) (st : PhaseSt) :
    (reportGs (trainPhase env ph gas mbs N epochs total st).2.1).Pairwise
      (· < ·) := by
  rw [trainPhase]
  by_cases h0 : epochs = 0
  · rw [if_pos h0]; simp [reportGs]
  · rw [if_neg h0]
    by_cases htr : env.trainable ph = false
    · rw [if_pos htr]; simp [reportGs]
    · rw [if_neg htr]
      exact epochLoop_reportGs_pairwise env ph gas (numMicroBatches N mbs) total
        epochs 0 st

/-- Without a stop request a phase never cancels the run and performs
exactly its budget of micro-batches. -/
theorem trainPhase_noStop (env : RunEnv) (ph gas mbs N epochs total : ℕ)
    (hs : ∀ g, env.stopAt g = false) (st : PhaseSt) :
    (trainPhase env ph gas mbs N epochs total st).2.2 = true
    ∧ (trainPhase env ph gas mbs N epochs total st).1.gsc =
        st.gsc + phaseBudget env (numMicroBatches N mbs) (ph, epochs) := by
  rw [trainPhase, phaseBudget]
  by_cases h0 : epochs = 0
  · rw [if_pos h0, if_pos h0]; simp
  · rw [if_neg h0, if_neg h0]
    by_cases htr : env.trainable ph = false
    · rw [if_pos htr, if_pos htr]; simp
    · rw [if_neg htr, if_neg htr]
      obtain ⟨h1, h2⟩ := epochLoop_noStop env ph gas (numMicroBatches N mbs) total hs
        epochs 0 st
      exact ⟨h1, by rw [h2]⟩

/-- Cancellation reach of one phase. -/
theorem trainPhase_stopReach (env : RunEnv) (ph gas mbs N epochs total k : ℕ)
    (hv : ∀ ph0 e0 i, env.valid ph0 e0 i ≠ 0)
    (hs : ∀ g, env.stopAt g = decide (k ≤ g)) (st : PhaseSt) (hlt : st.gsc < k) :
    (if k ≤ st.gsc + phaseBudget env (numMicroBatches N mbs) (ph, epochs)
     then (trainPhase env ph gas mbs N epochs total st).2.2 = false
       ∧ (trainPhase env ph gas mbs N epochs total st).1.gsc = k
     else (trainPhase env ph gas mbs N epochs total st).2.2 = true
       ∧ (trainPhase env ph gas mbs N epochs total st).1.gsc =
           st.gsc + phaseBudget env (numMicroBatches N mbs) (ph, epochs)) := by
  rw [trainPhase, phaseBudget]
  by_cases h0 : epochs = 0
  · rw [if_pos h0, if_pos h0]
    rw [if_neg (by omega)]
    simp
  · rw [if_neg h0, if_neg h0]
    by_cases htr : env.trainable ph = false
    · rw [if_pos htr, if_pos htr]
      rw [if_neg (by omega)]
      simp
    · rw [if_neg htr, if_neg htr]
      exact epochLoop_stopReach env ph gas (numMicroBatches N mbs) total k hv hs
        epochs 0 st hlt

theorem plannedSteps_nil (env : RunEnv) (M : ℕ) :
    plannedSteps env M [] = 0 := rfl

theorem plannedSteps_cons (env : RunEnv) (M : ℕ) (p : ℕ × ℕ)
    (rest : List (ℕ × ℕ)) :
    plannedSteps env M (p :: rest) =
      phaseBudget env M p + plannedSteps env M rest := by
  simp [plannedSteps]

/-- Step accounting of the phase curriculum. -/
theorem phasesLoop_bounds (env : RunEnv) (gas mbs N total : ℕ) :
    ∀ (phases : List (ℕ × ℕ)) (st : PhaseSt),
      st.gsc ≤ (phasesLoop env gas mbs N total phases st).1.gsc
      ∧ (phasesLoop env gas mbs N total phases st).1.gsc ≤
          st.gsc + plannedSteps env (numMicroBatches N mbs) phases
      ∧ ∀ g ∈ gsOf (phasesLoop env gas mbs N total phases st).2.1,
          st.gsc < g ∧ g ≤ (phasesLoop env gas mbs N total phases st).1.gsc := by
  intro phases
  induction phases with
  | nil => intro st; simp [phasesLoop, gsOf, plannedSteps]
  | cons p rest ih =>
    intro st
    obtain ⟨ph, eps⟩ := p
    simp only [phasesLoop]
    obtain ⟨t1, t2, t3⟩ := trainPhase_bounds env ph gas mbs N eps total st
    rw [plannedSteps_cons]
    by_cases hok : (trainPhase env ph gas mbs N eps total st).2.2 = true
    · rw [if_pos hok]
      obtain ⟨i1, i2, i3⟩ := ih (trainPhase env ph gas mbs N eps total st).1
      dsimp only
      refine ⟨by omega, by omega, ?_⟩
      intro g hg
      rw [gsOf, List.filterMap_append, ← gsOf, ← gsOf] at hg
      rcases List.mem_append.mp hg with hg | hg
      · obtain ⟨h1, h2⟩ := t3 g hg
        exact ⟨h1, by omega⟩
      · obtain ⟨h1, h2⟩ := i3 g hg
        exact ⟨by omega, h2⟩
    · rw [if_neg hok]
      refine ⟨t1, by omega, t3⟩

/-- The phase curriculum emits only phase events. -/
theorem phasesLoop_phaseOnly (env : RunEnv) (gas mbs N total : ℕ) :
    ∀ (phases : List (ℕ × ℕ)) (st : PhaseSt),
      ∀ ev ∈ (phasesLoop env gas mbs N total phases st).2.1,
        isPhaseEv ev = true := by
  intro phases
  induction phases with
  | nil => intro st ev hev; simp [phasesLoop] at hev
  | cons p rest ih =>
    intro st ev hev
    obtain ⟨ph, eps⟩ := p
    simp only [phasesLoop] at hev
    by_cases hok : (trainPhase env ph gas mbs N eps total st).2.2 = true
    · rw [if_pos hok] at hev
      rcases List.mem_append.mp hev with hev | hev
      · exact trainPhase_phaseOnly env ph gas mbs N eps total st ev hev
      · exact ih _ ev hev
    · rw [if_neg hok] at hev
      exact trainPhase_phaseOnly env ph gas mbs N eps total st ev hev

/-- Every progress fraction reported during the curriculum is
global_step_count / total_training_steps (or 0 when the budget is 0). -/
theorem phasesLoop_reportShape (env : RunEnv) (gas mbs N total : ℕ) :
    ∀ (phases : List (ℕ × ℕ)) (st : PhaseSt),
      ∀ ph2 e2 i g p lv, Ev.report ph2 e2 i g p lv ∈
          (phasesLoop env gas mbs N total phases st).2.1 →
        p = (if 0 < total then (g : ℚ) / (total : ℚ) else 0) := by
  intro phases
  induction phases with
  | nil => intro st ph2 e2 i g p lv hev; simp [phasesLoop] at hev
  | cons pp rest ih =>
    intro st ph2 e2 i g p lv hev
    obtain ⟨ph, eps⟩ := pp
    simp only [phasesLoop] at hev
    by_cases hok : (trainPhase env ph gas mbs N eps total st).2.2 = true
    · rw [if_pos hok] at hev
      rcases List.mem_append.mp hev with hev | hev
      · exact trainPhase_reportShape env ph gas mbs N eps total st _ _ _ _ _ _ hev
      · exact ih _ _ _ _ _ _ _ hev
    · rw [if_neg hok] at hev
      exact trainPhase_reportShape env ph gas mbs N eps total st _ _ _ _ _ _ hev

/-- Reported step counts of the whole curriculum are strictly increasing. -/
theorem phasesLoop_reportGs_pairwise (env : RunEnv) (gas mbs N total : ℕ) :
    ∀ (phases : List (ℕ × ℕ)) (st : PhaseSt),
      (reportGs (phasesLoop env gas mbs N total phases st).2.1).Pairwise
        (· < ·) := by
  intro phases
  induction phases with
  | nil => intro st; simp [phasesLoop, reportGs]
  | cons p rest ih =>
    intro st
    obtain ⟨ph, eps⟩ := p
    simp only [phasesLoop]
    by_cases hok : (trainPhase env ph gas mbs N eps total st).2.2 = true
    · rw [if_pos hok]
      dsimp only
      rw [reportGs_append, List.pairwise_append]
      refine ⟨trainPhase_reportGs_pairwise env ph gas mbs N eps total st, ih _, ?_⟩
      intro a ha b hb
      obtain ⟨t1, t2, t3⟩ := trainPhase_bounds env ph gas mbs N eps total st
      obtain ⟨i1, i2, i3⟩ := phasesLoop_bounds env gas mbs N total rest
        (trainPhase env ph gas mbs N eps total st).1
      obtain ⟨ha1, ha2⟩ := t3 a (mem_reportGs_mem_gsOf ha)
      obtain ⟨hb1, hb2⟩ := i3 b (mem_reportGs_mem_gsOf hb)
      omega
    · rw [if_neg hok]
      exact trainPhase_reportGs_pairwise env ph gas mbs N eps total st

/-- Without a stop request the curriculum completes and performs exactly
its planned number of micro-batches. -/
theorem phasesLoop_noStop (env : RunEnv) (gas mbs N total : ℕ)
    (hs : ∀ g, env.stopAt g = false) :
    ∀ (phases : List (ℕ × ℕ)) (st : PhaseSt),
      (phasesLoop env gas mbs N total phases st).2.2 = true
      ∧ (phasesLoop env gas mbs N total phases st).1.gsc =
          st.gsc + plannedSteps env (numMicroBatches N mbs) phases := by
  intro phases
  induction phases with
  | nil => intro st; simp [phasesLoop, plannedSteps]
  | cons p rest ih =>
    intro st
    obtain ⟨ph, eps⟩ := p
    simp only [phasesLoop]
    obtain ⟨t1, t2⟩ := trainPhase_noStop env ph gas mbs N eps total hs st
    rw [if_pos t1]
    obtain ⟨i1, i2⟩ := ih (trainPhase env ph gas mbs N eps total st).1
    refine ⟨i1, ?_⟩
    dsimp only
    rw [i2, t2, plannedSteps_cons]
    omega

/-- Cancellation reach of the phase curriculum: with STOP answered from
step k on and no degenerate batches, the curriculum aborts with
global_step_count exactly k whenever its planned budget reaches k. -/
theorem phasesLoop_stopReach (env : RunEnv) (gas mbs N total k : ℕ)
    (hv : ∀ ph0 e0 i, env.valid ph0 e0 i ≠ 0)
    (hs : ∀ g, env.stopAt g = decide (k ≤ g)) :
    ∀ (phases : List (ℕ × ℕ)) (st : PhaseSt), st.gsc < k →
      (if k ≤ st.gsc + plannedSteps env (numMicroBatches N mbs) phases
       then (phasesLoop env gas mbs N total phases st).2.2 = false
         ∧ (phasesLoop env gas mbs N total phases st).1.gsc = k
       else (phasesLoop env gas mbs N total phases st).2.2 = true
         ∧ (phasesLoop env gas mbs N total phases st).1.gsc =
             st.gsc + plannedSteps env (numMicroBatches N mbs) phases) := by
  intro phases
  induction phases with
  | nil =>
    intro st hlt
    rw [plannedSteps_nil, if_neg (by omega)]
    simp [phasesLoop]
  | cons p rest ih =>
    intro st hlt
    obtain ⟨ph, eps⟩ := p
    simp only [phasesLoop]
    rw [plannedSteps_cons]
    have hphase := trainPhase_stopReach env ph gas mbs N eps total k hv hs st hlt
    by_cases hk1 : k ≤ st.gsc + phaseBudget env (numMicroBatches N mbs) (ph, eps)
    · rw [if_pos hk1] at hphase
      rw [if_pos (show k ≤ st.gsc +
          (phaseBudget env (numMicroBatches N mbs) (ph, eps) +
            plannedSteps env (numMicroBatches N mbs) rest) by omega)]
      rw [if_neg (show ¬ ((trainPhase env ph gas mbs N eps total st).2.2 = true) by
        rw [hphase.1]; exact Bool.false_ne_true)]
      exact hphase
    · rw [if_neg hk1] at hphase
      rw [if_pos hphase.1]
      have hlt2 : (trainPhase env ph gas mbs N eps total st).1.gsc < k := by
        rw [hphase.2]; omega
      have ihx := ih (trainPhase env ph gas mbs N eps total st).1 hlt2
      dsimp only
      by_cases hk2 : k ≤ st.gsc +
          (phaseBudget env (numMicroBatches N mbs) (ph, eps) +
            plannedSteps env (numMicroBatches N mbs) rest)
      · rw [if_pos hk2]
        rw [if_pos (show k ≤ (trainPhase env ph gas mbs N eps total st).1.gsc +
            plannedSteps env (numMicroBatches N mbs) rest by
          rw [hphase.2]; omega)] at ihx
        exact ihx
      · rw [if_neg hk2]
        rw [if_neg (show ¬ k ≤ (trainPhase env ph gas mbs N eps total st).1.gsc +
            plannedSteps env (numMicroBatches N mbs) rest by
          rw [hphase.2]; omega)] at ihx
        refine ⟨ihx.1, ?_⟩
        rw [ihx.2, hphase.2]
        omega

theorem phasesLoop_not_mem_admin (env : RunEnv) (gas mbs N total : ℕ)
    (phases : List (ℕ × ℕ)) (st : PhaseSt) (ev0 : Ev)
    (h0 : isPhaseEv ev0 = false) :
    ev0 ∉ (phasesLoop env gas mbs N total phases st).2.1 := by
  intro hmem
  have h := phasesLoop_phaseOnly env gas mbs N total phases st ev0 hmem
  rw [h0] at h
  exact Bool.false_ne_true h

/-- When every report in a trace carries the canonical progress fraction,
the reported progress list is the image of the reported step counts. -/
theorem progressOf_eq_map (total : ℕ) (evs : List Ev)
    (h : ∀ ph e i g p lv, Ev.report ph e i g p lv ∈ evs →
      p = (if 0 < total then (g : ℚ) / (total : ℚ) else 0)) :
    progressOf evs = (reportGs evs).map
      (fun (g : ℕ) => if 0 < total then (g : ℚ) / (total : ℚ) else 0) := by
  induction evs with
  | nil => rfl
  | cons ev tl ih =>
    have htl : ∀ ph e i g p lv, Ev.report ph e i g p lv ∈ tl →
        p = (if 0 < total then (g : ℚ) / (total : ℚ) else 0) :=
      fun ph e i g p lv hm => h ph e i g p lv (List.mem_cons_of_mem _ hm)
    cases ev with
    | report ph e i g p lv =>
      have hp := h ph e i g p lv (List.mem_cons_self _ _)
      simp only [progressOf, reportGs, List.filterMap_cons, List.map_cons]
      rw [← progressOf, ← reportGs, ih htl, hp]
    | micro ph e i g =>
      simp only [progressOf, reportGs, List.filterMap_cons]
      exact ih htl
    | optStep ph e i =>
      simp only [progressOf, reportGs, List.filterMap_cons]
      exact ih htl
    | monitorStart =>
      simp only [progressOf, reportGs, List.filterMap_cons]
      exact ih htl
    | monitorStop =>
      simp only [progressOf, reportGs, List.filterMap_cons]
      exact ih htl
    | saveResourceMetrics =>
      simp only [progressOf, reportGs, List.filterMap_cons]
      exact ih htl
    | savePerfMetrics =>
      simp only [progressOf, reportGs, List.filterMap_cons]
      exact ih htl
    | saveModel =>
      simp only [progressOf, reportGs, List.filterMap_cons]
      exact ih htl
    | cleanup =>
      simp only [progressOf, reportGs, List.filterMap_cons]
      exact ih htl
    | updateStatus s =>
      simp only [progressOf, reportGs, List.filterMap_cons]
      exact ih htl
    | callbackDone s =>
      simp only [progressOf, reportGs, List.filterMap_cons]
      exact ih htl

/-- Strictly increasing step counts yield a monotone progress sequence. -/
theorem progress_pairwise_le (total : ℕ) (evs : List Ev)
    (h : ∀ ph e i g p lv, Ev.report ph e i g p lv ∈ evs →
      p = (if 0 < total then (g : ℚ) / (total : ℚ) else 0))
    (hpw : (reportGs evs).Pairwise (· < ·)) :
    (progressOf evs).Pairwise (· ≤ ·) := by
  rw [progressOf_eq_map total evs h, List.pairwise_map]
  refine hpw.imp fun {a b} hab => ?_
  by_cases ht : 0 < total
  · have hcast : (a : ℚ) ≤ (b : ℚ) := by exact_mod_cast Nat.le_of_lt hab
    simp only [ht, if_pos]
    gcongr
  · simp [ht]

/-- Step counts bounded by the budget yield progress fractions at most 1. -/
theorem progress_le_one (total : ℕ) (evs : List Ev)
    (h : ∀ ph e i g p lv, Ev.report ph e i g p lv ∈ evs →
      p = (if 0 < total then (g : ℚ) / (total : ℚ) else 0))
    (hb : ∀ g ∈ reportGs evs, g ≤ total) :
    ∀ p ∈ progressOf evs, p ≤ 1 := by
  rw [progressOf_eq_map total evs h]
  intro p hp
  rw [List.mem_map] at hp
  obtain ⟨g, hg, rfl⟩ := hp
  by_cases ht : 0 < total
  · simp only [ht, if_pos]
    rw [div_le_one (by exact_mod_cast ht)]
    exact_mod_cast hb g hg
  · simp [ht]

theorem numMicroBatches_of_dvd (N mbs : ℕ) (hdvd : mbs ∣ N) (h0 : 0 < mbs) :
    numMicroBatches N mbs = N / mbs := by
  obtain ⟨q, rfl⟩ := hdvd
  rw [numMicroBatches, Nat.mul_div_cancel_left q h0]
  have h1 : mbs * q + mbs - 1 = mbs * q + (mbs - 1) := by omega
  rw [h1, Nat.mul_add_div h0, Nat.div_eq_of_lt (by omega), Nat.add_zero]

theorem phaseBudget_le (env : RunEnv) (M : ℕ) (p : ℕ × ℕ) :
    phaseBudget env M p ≤ p.2 * M := by
  rw [phaseBudget]
  by_cases h0 : p.2 = 0
  · rw [if_pos h0]
    exact Nat.zero_le _
  · rw [if_neg h0]
    by_cases htr : env.trainable p.1 = false
    · rw [if_pos htr]
      exact Nat.zero_le _
    · rw [if_neg htr]

/-- The try block emits only phase events plus, on the completed path, the
metrics persistence and model saving calls. -/
theorem tryBlock_mem (env : RunEnv) (hp : HP) :
    ∀ ev ∈ (tryBlock env hp).2,
      isPhaseEv ev = true ∨ ev = Ev.savePerfMetrics ∨ ev = Ev.saveModel := by
  intro ev hev
  simp only [tryBlock] at hev
  by_cases hinit : env.initOk = false
  · rw [if_pos hinit] at hev
    simp at hev
  · rw [if_neg hinit] at hev
    cases hidx : env.idxRes with
    | error u =>
      rw [hidx] at hev
      simp at hev
    | ok idx =>
      rw [hidx] at hev
      dsimp only at hev
      by_cases hmodel : env.modelOk = false
      · rw [if_pos hmodel] at hev
        simp at hev
      · rw [if_neg hmodel] at hev
        by_cases hok : (phasesLoop env (hp.batch_size / hp.micro_batch_size)
            hp.micro_batch_size idx.length (totalSteps hp idx.length)
            [(0, hp.epochs 0), (1, hp.epochs 1), (2, hp.epochs 2), (3, hp.epochs 3)]
            ⟨0, []⟩).2.2 = true
        · rw [if_pos hok] at hev
          by_cases heval : env.evalOk = true
          · rw [if_pos heval] at hev
            rcases List.mem_append.mp hev with hev | hev
            · exact Or.inl (phasesLoop_phaseOnly _ _ _ _ _ _ _ ev hev)
            · simp only [List.mem_cons, List.mem_singleton, List.not_mem_nil,
                or_false] at hev
              rcases hev with hev | hev
              · exact Or.inr (Or.inl hev)
              · exact Or.inr (Or.inr hev)
          · rw [if_neg heval] at hev
            exact Or.inl (phasesLoop_phaseOnly _ _ _ _ _ _ _ ev hev)
        · rw [if_neg hok] at hev
          exact Or.inl (phasesLoop_phaseOnly _ _ _ _ _ _ _ ev hev)

/-- The try block never yields the transient status RUNNING. -/
theorem tryBlock_final_terminal (env : RunEnv) (hp : HP) :
    (tryBlock env hp).1 ≠ Status.RUNNING := by
  simp only [tryBlock]
  by_cases hinit : env.initOk = false
  · rw [if_pos hinit]
    simp
  · rw [if_neg hinit]
    cases hidx : env.idxRes with
    | error u => simp
    | ok idx =>
      dsimp only
      by_cases hmodel : env.modelOk = false
      · rw [if_pos hmodel]
        simp
      · rw [if_neg hmodel]
        by_cases hok : (phasesLoop env (hp.batch_size / hp.micro_batch_size)
            hp.micro_batch_size idx.length (totalSteps hp idx.length)
            [(0, hp.epochs 0), (1, hp.epochs 1), (2, hp.epochs 2), (3, hp.epochs 3)]
            ⟨0, []⟩).2.2 = true
        · rw [if_pos hok]
          by_cases heval : env.evalOk = true
          · rw [if_pos heval]
            simp
          · rw [if_neg heval]
            simp
        · rw [if_neg hok]
          simp

/-- Administrative events of the finally block never occur inside the try
block trace. -/
theorem tryBlock_count_zero (env : RunEnv) (hp : HP) (ev0 : Ev)
    (h0 : isPhaseEv ev0 = false) (h1 : ev0 ≠ Ev.savePerfMetrics)
    (h2 : ev0 ≠ Ev.saveModel) :
    (tryBlock env hp).2.count ev0 = 0 := by
  rw [List.count_eq_zero]
  intro hmem
  rcases tryBlock_mem env hp ev0 hmem with h | h | h
  · rw [h0] at h
    exact Bool.false_ne_true h
  · exact h1 h
  · exact h2 h

/-- C9 (amended): run() always returns None to its caller (python run has
no return statement); the terminal status COMPLETED / ABORTED / FAILED is
reported through the final callback invocation and recorded in the run
record instead.  On every exit path the resource monitor is started and
stopped exactly once, references are released exactly once, resource
metrics are persisted precisely when a run record exists, and the last
observable action is the final callback carrying the terminal status. -/
theorem run_reports_terminal_status (env : RunEnv) (hp : HP) :
    (run env hp).retVal = none
    ∧ (run env hp).final ≠ Status.RUNNING
    ∧ (run env hp).events.count Ev.monitorStart = 1
    ∧ (run env hp).events.count Ev.monitorStop = 1
    ∧ (run env hp).events.count Ev.cleanup = 1
    ∧ (run env hp).events.count Ev.saveResourceMetrics =
        (if env.initOk then 1 else 0)
    ∧ (run env hp).events.getLast? = some (Ev.callbackDone (run env hp).final) := by
  refine ⟨rfl, tryBlock_final_terminal env hp, ?_, ?_, ?_, ?_, ?_⟩
  · simp only [run, List.count_cons, List.count_append,
      tryBlock_count_zero env hp Ev.monitorStart rfl (by decide) (by decide)]
    by_cases hinit : env.initOk <;> simp [hinit, List.count_cons]
  · simp only [run, List.count_cons, List.count_append,
      tryBlock_count_zero env hp Ev.monitorStop rfl (by decide) (by decide)]
    by_cases hinit : env.initOk <;> simp [hinit, List.count_cons]
  · simp only [run, List.count_cons, List.count_append,
      tryBlock_count_zero env hp Ev.cleanup rfl (by decide) (by decide)]
    by_cases hinit : env.initOk <;> simp [hinit, List.count_cons]
  · simp only [run, List.count_cons, List.count_append,
      tryBlock_count_zero env hp Ev.saveResourceMetrics rfl (by decide) (by decide)]
    by_cases hinit : env.initOk <;> simp [hinit, List.count_cons]
  · simp only [run]
    have h2 : (([Ev.monitorStop] ++
        (if env.initOk then
          [Ev.saveResourceMetrics, Ev.updateStatus (tryBlock env hp).1] else []) ++
        [Ev.cleanup, Ev.callbackDone (tryBlock env hp).1])) ≠ [] := by
      by_cases hinit : env.initOk <;> simp [hinit]
    have hX : ((tryBlock env hp).2 ++ ([Ev.monitorStop] ++
        (if env.initOk then
          [Ev.saveResourceMetrics, Ev.updateStatus (tryBlock env hp).1] else []) ++
        [Ev.cleanup, Ev.callbackDone (tryBlock env hp).1])) ≠ [] := by
      intro hcon
      rw [List.append_eq_nil] at hcon
      exact h2 hcon.2
    rw [show (Ev.monitorStart :: (tryBlock env hp).2 ++ ([Ev.monitorStop] ++
        (if env.initOk then
          [Ev.saveResourceMetrics, Ev.updateStatus (tryBlock env hp).1] else []) ++
        [Ev.cleanup, Ev.callbackDone (tryBlock env hp).1])) =
      [Ev.monitorStart] ++ ((tryBlock env hp).2 ++ ([Ev.monitorStop] ++
        (if env.initOk then
          [Ev.saveResourceMetrics, Ev.updateStatus (tryBlock env hp).1] else []) ++
        [Ev.cleanup, Ev.callbackDone (tryBlock env hp).1])) from rfl]
    rw [List.getLast?_append_of_ne_nil _ hX,
      List.getLast?_append_of_ne_nil _ h2,
      List.getLast?_append_of_ne_nil _ (by simp)]
    rfl

theorem mem_micro_mem_gsOf {ph e i g : ℕ} {evs : List Ev}
    (h : Ev.micro ph e i g ∈ evs) : g ∈ gsOf evs := by
  simp only [gsOf, List.mem_filterMap]
  exact ⟨Ev.micro ph e i g, h, rfl⟩

/-- C3: when the callback answers STOP from global micro-batch k on (and is
consulted after every micro-batch because none is degenerate), and k lies
within the run's planned step budget, the run executes no micro-batch
beyond k in any phase, terminates with status ABORTED, and neither the
performance metrics persistence call nor the model saving call occurs. -/
theorem run_cancellation (env : RunEnv) (hp : HP) (k : ℕ) (idx : List ℕ)
    (hinit : env.initOk = true) (hidx : env.idxRes = Except.ok idx)
    (hmodel : env.modelOk = true)
    (hv : ∀ ph0 e0 i, env.valid ph0 e0 i ≠ 0)
    (hs : ∀ g, env.stopAt g = decide (k ≤ g))
    (hk1 : 1 ≤ k)
    (hk2 : k ≤ plannedSteps env (numMicroBatches idx.length hp.micro_batch_size)
        [(0, hp.epochs 0), (1, hp.epochs 1), (2, hp.epochs 2), (3, hp.epochs 3)]) :
    (run env hp).final = Status.ABORTED
    ∧ (∀ ph e i g, Ev.micro ph e i g ∈ (run env hp).events → g ≤ k)
    ∧ Ev.savePerfMetrics ∉ (run env hp).events
    ∧ Ev.saveModel ∉ (run env hp).events := by
  have hreach := phasesLoop_stopReach env (hp.batch_size / hp.micro_batch_size)
    hp.micro_batch_size idx.length (totalSteps hp idx.length) k hv hs
    [(0, hp.epochs 0), (1, hp.epochs 1), (2, hp.epochs 2), (3, hp.epochs 3)]
    ⟨0, []⟩ (by show (0 : ℕ) < k; omega)
  rw [if_pos (by simpa using hk2)] at hreach
  have htb : tryBlock env hp = (Status.ABORTED,
      (phasesLoop env (hp.batch_size / hp.micro_batch_size) hp.micro_batch_size
        idx.length (totalSteps hp idx.length)
        [(0, hp.epochs 0), (1, hp.epochs 1), (2, hp.epochs 2), (3, hp.epochs 3)]
        ⟨0, []⟩).2.1) := by
    simp only [tryBlock]
    rw [if_neg (by simp [hinit]), hidx]
    dsimp only
    rw [if_neg (by simp [hmodel])]
    rw [if_neg (by rw [hreach.1]; exact Bool.false_ne_true)]
  have hbounds := phasesLoop_bounds env (hp.batch_size / hp.micro_batch_size)
    hp.micro_batch_size idx.length (totalSteps hp idx.length)
    [(0, hp.epochs 0), (1, hp.epochs 1), (2, hp.epochs 2), (3, hp.epochs 3)]
    ⟨0, []⟩
  refine ⟨by show (tryBlock env hp).1 = Status.ABORTED; rw [htb], ?_, ?_, ?_⟩
  · intro ph e i g hmem
    simp only [run] at hmem
    rcases List.mem_cons.mp hmem with hmem | hmem
    · exact absurd hmem (by simp)
    · rcases List.mem_append.mp hmem with hmem | hmem
      · rw [htb] at hmem
        have hg := mem_micro_mem_gsOf hmem
        have hle := (hbounds.2.2 g hg).2
        rw [hreach.2] at hle
        exact hle
      · rw [hinit] at hmem
        simp at hmem
  · intro hmem
    simp only [run] at hmem
    rcases List.mem_cons.mp hmem with hmem | hmem
    · exact absurd hmem (by simp)
    · rcases List.mem_append.mp hmem with hmem | hmem
      · rw [htb] at hmem
        exact phasesLoop_not_mem_admin env (hp.batch_size / hp.micro_batch_size)
          hp.micro_batch_size idx.length (totalSteps hp idx.length)
          [(0, hp.epochs 0), (1, hp.epochs 1), (2, hp.epochs 2), (3, hp.epochs 3)]
          ⟨0, []⟩ Ev.savePerfMetrics rfl hmem
      · rw [hinit] at hmem
        simp at hmem
  · intro hmem
    simp only [run] at hmem
    rcases List.mem_cons.mp hmem with hmem | hmem
    · exact absurd hmem (by simp)
    · rcases List.mem_append.mp hmem with hmem | hmem
      · rw [htb] at hmem
        exact phasesLoop_not_mem_admin env (hp.batch_size / hp.micro_batch_size)
          hp.micro_batch_size idx.length (totalSteps hp idx.length)
          [(0, hp.epochs 0), (1, hp.epochs 1), (2, hp.epochs 2), (3, hp.epochs 3)]
          ⟨0, []⟩ Ev.saveModel rfl hmem
      · rw [hinit] at hmem
        simp at hmem

/-- The reported progress of the try block is either empty or exactly the
progress reported by the phase curriculum. -/
theorem tryBlock_trace_cases (env : RunEnv) (hp : HP) :
    (tryBlock env hp).2 = []
    ∨ ∃ idx, env.idxRes = Except.ok idx ∧
        progressOf (tryBlock env hp).2 =
          progressOf (phasesLoop env (hp.batch_size / hp.micro_batch_size)
            hp.micro_batch_size idx.length (totalSteps hp idx.length)
            [(0, hp.epochs 0), (1, hp.epochs 1), (2, hp.epochs 2), (3, hp.epochs 3)]
            ⟨0, []⟩).2.1 := by
  simp only [tryBlock]
  by_cases hinit : env.initOk = false
  · rw [if_pos hinit]
    exact Or.inl rfl
  · rw [if_neg hinit]
    cases hidx : env.idxRes with
    | error u => exact Or.inl rfl
    | ok idx =>
      dsimp only
      by_cases hmodel : env.modelOk = false
      · rw [if_pos hmodel]
        exact Or.inl rfl
      · rw [if_neg hmodel]
        by_cases hok : (phasesLoop env (hp.batch_size / hp.micro_batch_size)
            hp.micro_batch_size idx.length (totalSteps hp idx.length)
            [(0, hp.epochs 0), (1, hp.epochs 1), (2, hp.epochs 2), (3, hp.epochs 3)]
            ⟨0, []⟩).2.2 = true
        · rw [if_pos hok]
          by_cases heval : env.evalOk = true
          · rw [if_pos heval]
            refine Or.inr ⟨idx, rfl, ?_⟩
            rw [progressOf_append]
            simp [progressOf]
          · rw [if_neg heval]
            exact Or.inr ⟨idx, rfl, rfl⟩
        · rw [if_neg hok]
          exact Or.inr ⟨idx, rfl, rfl⟩

/-- The administrative head and tail of the run trace report no progress:
all reported progress comes from the try block. -/
theorem run_progressOf (env : RunEnv) (hp : HP) :
    progressOf (run env hp).events = progressOf (tryBlock env hp).2 := by
  simp only [run]
  rw [show (Ev.monitorStart :: (tryBlock env hp).2 ++ ([Ev.monitorStop] ++
      (if env.initOk then
        [Ev.saveResourceMetrics, Ev.updateStatus (tryBlock env hp).1] else []) ++
      [Ev.cleanup, Ev.callbackDone (tryBlock env hp).1])) =
    [Ev.monitorStart] ++ ((tryBlock env hp).2 ++ ([Ev.monitorStop] ++
      (if env.initOk then
        [Ev.saveResourceMetrics, Ev.updateStatus (tryBlock env hp).1] else []) ++
      [Ev.cleanup, Ev.callbackDone (tryBlock env hp).1])) from rfl]
  rw [progressOf_append, progressOf_append]
  have h2 : progressOf ([Ev.monitorStop] ++
      (if env.initOk then
        [Ev.saveResourceMetrics, Ev.updateStatus (tryBlock env hp).1] else []) ++
      [Ev.cleanup, Ev.callbackDone (tryBlock env hp).1]) = [] := by
    by_cases hinit : env.initOk <;> simp [hinit, progressOf]
  rw [h2]
  simp [progressOf]

/-- C2 (amended): total_training_steps is the sum over the four phases of
epochs * floor(index_count / micro_batch_size); the progress fractions
reported during any run are monotonically non-decreasing across the whole
run (total_training_steps is fixed before the phases start and
global_step_count only grows); and the reported progress never exceeds 1.0
provided micro_batch_size divides the oversampled index count.  (When it
does not divide it, the trailing partial micro-batch of each epoch is still
executed and counted, and progress can exceed 1.0, as the counterexample
shows.) -/
theorem run_progress_accounting (env : RunEnv) (hp : HP) :
    (∀ N, totalSteps hp N =
      hp.epochs 0 * (N / hp.micro_batch_size)
      + hp.epochs 1 * (N / hp.micro_batch_size)
      + hp.epochs 2 * (N / hp.micro_batch_size)
      + hp.epochs 3 * (N / hp.micro_batch_size))
    ∧ (progressOf (run env hp).events).Pairwise (· ≤ ·)
    ∧ (∀ idx, env.idxRes = Except.ok idx →
        hp.micro_batch_size ∣ idx.length → 0 < hp.micro_batch_size →
        ∀ p ∈ progressOf (run env hp).events, p ≤ 1) := by
  refine ⟨?_, ?_, ?_⟩
  · intro N
    have hr : List.range 4 = [0, 1, 2, 3] := rfl
    simp only [totalSteps, hr, List.map_cons, List.map_nil, List.sum_cons,
      List.sum_nil]
    omega
  · rw [run_progressOf]
    rcases tryBlock_trace_cases env hp with hcase | ⟨idx, hidx, hcase⟩
    · rw [hcase]
      simp [progressOf]
    · rw [hcase]
      exact progress_pairwise_le (totalSteps hp idx.length) _
        (phasesLoop_reportShape env (hp.batch_size / hp.micro_batch_size)
          hp.micro_batch_size idx.length (totalSteps hp idx.length) _ _)
        (phasesLoop_reportGs_pairwise env (hp.batch_size / hp.micro_batch_size)
          hp.micro_batch_size idx.length (totalSteps hp idx.length) _ _)
  · intro idx hidx hdvd h0 p hp2
    rw [run_progressOf] at hp2
    rcases tryBlock_trace_cases env hp with hcase | ⟨idx2, hidx2, hcase⟩
    · rw [hcase] at hp2
      simp [progressOf] at hp2
    · have hsame : idx2 = idx := by
        rw [hidx] at hidx2
        injection hidx2 with h
        exact h.symm
      rw [hsame] at hcase
      rw [hcase] at hp2
      refine progress_le_one (totalSteps hp idx.length) _
        (phasesLoop_reportShape env (hp.batch_size / hp.micro_batch_size)
          hp.micro_batch_size idx.length (totalSteps hp idx.length) _ _) ?_ p hp2
      intro g hg
      have hb := phasesLoop_bounds env (hp.batch_size / hp.micro_batch_size)
        hp.micro_batch_size idx.length (totalSteps hp idx.length)
        [(0, hp.epochs 0), (1, hp.epochs 1), (2, hp.epochs 2), (3, hp.epochs 3)]
        ⟨0, []⟩
      have hgle := (hb.2.2 g (mem_reportGs_mem_gsOf hg)).2
      have hup : (phasesLoop env (hp.batch_size / hp.micro_batch_size)
          hp.micro_batch_size idx.length (totalSteps hp idx.length)
          [(0, hp.epochs 0), (1, hp.epochs 1), (2, hp.epochs 2), (3, hp.epochs 3)]
          ⟨0, []⟩).1.gsc ≤ 0 + plannedSteps env
            (numMicroBatches idx.length hp.micro_batch_size)
            [(0, hp.epochs 0), (1, hp.epochs 1), (2, hp.epochs 2), (3, hp.epochs 3)] :=
        hb.2.1
      have hM : numMicroBatches idx.length hp.micro_batch_size =
          idx.length / hp.micro_batch_size := numMicroBatches_of_dvd _ _ hdvd h0
      have b0 : phaseBudget env (idx.length / hp.micro_batch_size)
          (0, hp.epochs 0) ≤ hp.epochs 0 * (idx.length / hp.micro_batch_size) :=
        phaseBudget_le env _ _
      have b1 : phaseBudget env (idx.length / hp.micro_batch_size)
          (1, hp.epochs 1) ≤ hp.epochs 1 * (idx.length / hp.micro_batch_size) :=
        phaseBudget_le env _ _
      have b2 : phaseBudget env (idx.length / hp.micro_batch_size)
          (2, hp.epochs 2) ≤ hp.epochs 2 * (idx.length / hp.micro_batch_size) :=
        phaseBudget_le env _ _
      have b3 : phaseBudget env (idx.length / hp.micro_batch_size)
          (3, hp.epochs 3) ≤ hp.epochs 3 * (idx.length / hp.micro_batch_size) :=
        phaseBudget_le env _ _
      have hplan : plannedSteps env
          (numMicroBatches idx.length hp.micro_batch_size)
          [(0, hp.epochs 0), (1, hp.epochs 1), (2, hp.epochs 2), (3, hp.epochs 3)] ≤
          totalSteps hp idx.length := by
        rw [hM]
        have hr : List.range 4 = [0, 1, 2, 3] := rfl
        simp only [totalSteps, hr, List.map_cons, List.map_nil, List.sum_cons,
          List.sum_nil, plannedSteps_cons, plannedSteps_nil]
        omega
      omega

theorem length_filter_mod (gas : ℕ) (_hgas : 0 < gas) (M : ℕ) :
    ((List.range M).filter (fun i => (i + 1) % gas = 0)).length = M / gas := by
  induction M with
  | zero => simp
  | succ M ih =>
    rw [List.range_succ, List.filter_append, List.length_append, ih, Nat.succ_div]
    by_cases hd : gas ∣ M + 1
    · rw [if_pos hd]
      have hmod : (M + 1) % gas = 0 := Nat.dvd_iff_mod_eq_zero.mp hd
      simp [hmod]
    · rw [if_neg hd]
      have hmod : (M + 1) % gas ≠ 0 :=
        fun hcon => hd (Nat.dvd_iff_mod_eq_zero.mpr hcon)
      simp [hmod]

theorem trailing_not_step (M gas i : ℕ) (_hgas : 0 < gas)
    (hi : gas * (M / gas) ≤ i) (hiM : i < M) : (i + 1) % gas ≠ 0 := by
  intro hmod
  have hdvd : gas ∣ i + 1 := Nat.dvd_iff_mod_eq_zero.mpr hmod
  have h1 : (i + 1) / gas * gas = i + 1 := Nat.div_mul_cancel hdvd
  have h2 : (i + 1) / gas ≤ M / gas := Nat.div_le_div_right (by omega)
  have h3 : (i + 1) / gas * gas ≤ M / gas * gas := Nat.mul_le_mul_right gas h2
  have h4 : gas * (M / gas) = M / gas * gas := Nat.mul_comm _ _
  omega

/-- C5: within every executed training phase, an optimizer step occurs
exactly at the micro-batches i with (i + 1) divisible by grad_accum_steps,
hence exactly floor(batches_per_epoch / grad_accum_steps) times per epoch;
the trailing incomplete accumulation group at the end of an epoch triggers
no optimizer step; and the reported loss of every micro-batch equals its
raw loss (the scaled loss raw / grad_accum_steps multiplied back by
grad_accum_steps).  Hypotheses: the phase has trainable parameters, no
micro-batch is degenerate, and the callback never requests a stop. -/
theorem trainPhase_accumulation (env : RunEnv) (ph gas mbs N epochs total : ℕ)
    (st : PhaseSt) (hgas : 0 < gas)
    (hv : ∀ e i, env.valid ph e i ≠ 0)
    (hs : ∀ g, env.stopAt g = false)
    (htr : env.trainable ph = true) :
    (∀ e2, e2 < epochs →
      stepsOf ph e2 (trainPhase env ph gas mbs N epochs total st).2.1 =
        (List.range (numMicroBatches N mbs)).filter (fun i => (i + 1) % gas = 0))
    ∧ (∀ e2, e2 < epochs →
      (stepsOf ph e2 (trainPhase env ph gas mbs N epochs total st).2.1).length =
        numMicroBatches N mbs / gas)
    ∧ (∀ e2 i, e2 < epochs → gas * (numMicroBatches N mbs / gas) ≤ i →
      Ev.optStep ph e2 i ∉ (trainPhase env ph gas mbs N epochs total st).2.1)
    ∧ (∀ e2, e2 < epochs →
      lossesOf ph e2 (trainPhase env ph gas mbs N epochs total st).2.1 =
        (List.range (numMicroBatches N mbs)).map
          (fun i => (i, env.rawLoss ph e2 i)))
    ∧ (∀ e i, env.rawLoss ph e i / (gas : ℚ) * (gas : ℚ) = env.rawLoss ph e i) := by
  have hcast : (gas : ℚ) ≠ 0 := Nat.cast_ne_zero.mpr (by omega)
  have htrace : ∀ e2, e2 < epochs →
      stepsOf ph e2 (trainPhase env ph gas mbs N epochs total st).2.1 =
        (List.range (numMicroBatches N mbs)).filter
          (fun i => (i + 1) % gas = 0) := by
    intro e2 he2
    rw [trainPhase, if_neg (by omega), if_neg (by rw [htr]; simp)]
    rw [epochLoop_steps env ph gas (numMicroBatches N mbs) total hs hv epochs 0
      st ph e2]
    rw [if_pos ⟨rfl, by omega, by omega⟩]
  have hlosses : ∀ e2, e2 < epochs →
      lossesOf ph e2 (trainPhase env ph gas mbs N epochs total st).2.1 =
        (List.range (numMicroBatches N mbs)).map
          (fun i => (i, env.rawLoss ph e2 i)) := by
    intro e2 he2
    rw [trainPhase, if_neg (by omega), if_neg (by rw [htr]; simp)]
    rw [epochLoop_losses env ph gas (numMicroBatches N mbs) total hs hv epochs 0
      st ph e2]
    rw [if_pos ⟨rfl, by omega, by omega⟩]
    apply List.map_congr_left
    intro i _
    rw [div_mul_cancel₀ _ hcast]
  refine ⟨htrace, ?_, ?_, hlosses, ?_⟩
  · intro e2 he2
    rw [htrace e2 he2]
    exact length_filter_mod gas hgas _
  · intro e2 i he2 hi hmem
    have hstep : i ∈ stepsOf ph e2
        (trainPhase env ph gas mbs N epochs total st).2.1 := by
      simp only [stepsOf, List.mem_filterMap]
      exact ⟨Ev.optStep ph e2 i, hmem, by simp⟩
    rw [htrace e2 he2] at hstep
    rw [List.mem_filter] at hstep
    have hiM : i < numMicroBatches N mbs := List.mem_range.mp hstep.1
    have hmod : (i + 1) % gas = 0 := by simpa using hstep.2
    exact trailing_not_step (numMicroBatches N mbs) gas i hgas hi hiM hmod
  · intro e i
    rw [div_mul_cancel₀ _ hcast]

/-- C7 (amended): min_less_portion = 0 disables oversampling and leaves the
index list unchanged.  When the key is absent, the comparison falls back to
the default 0.5; if the minority class is non-empty with fraction below
0.5, the body then indexes the missing key and the run fails (KeyError
caught by the top-level handler, status FAILED); otherwise the index list
is unchanged and no failure occurs. -/
theorem oversampling_min_less_portion (numLess numMajority : ℕ)
    (extra : ℕ → List ℕ) :
    computeBaseIndexes numLess numMajority extra (some 0) =
      Except.ok (List.range (numLess + numMajority))
    ∧ ((0 < numLess ∧
        (numLess : ℚ) / (((numLess + numMajority : ℕ)) : ℚ) < 1 / 2) →
        computeBaseIndexes numLess numMajority extra none = Except.error ())
    ∧ (¬ (0 < numLess ∧
        (numLess : ℚ) / (((numLess + numMajority : ℕ)) : ℚ) < 1 / 2) →
        computeBaseIndexes numLess numMajority extra none =
          Except.ok (List.range (numLess + numMajority)))
    ∧ (∀ env hp, env.idxRes = Except.error () →
        (run env hp).final = Status.FAILED) := by
  refine ⟨?_, ?_, ?_, ?_⟩
  · simp only [computeBaseIndexes, Option.getD_some]
    have hn : ¬ (0 < numLess ∧
        (numLess : ℚ) / (((numLess + numMajority : ℕ)) : ℚ) < 0) := by
      rintro ⟨h1, h2⟩
      have h0 : (0 : ℚ) ≤ (numLess : ℚ) / (((numLess + numMajority : ℕ)) : ℚ) := by
        positivity
      linarith
    rw [if_neg hn]
  · intro h
    simp only [computeBaseIndexes, Option.getD_none]
    rw [if_pos h]
  · intro h
    simp only [computeBaseIndexes, Option.getD_none]
    rw [if_neg h]
  · intro env hp hidx
    show (tryBlock env hp).1 = Status.FAILED
    simp only [tryBlock]
    by_cases hinit : env.initOk = false
    · rw [if_pos hinit]
    · rw [if_neg hinit, hidx]

/-- C2 (counterexample): with 3 samples and micro_batch_size 2,
total_training_steps is 1 * floor(3 / 2) = 1 but the epoch runs
ceil(3 / 2) = 2 micro-batches, so the run reports progress 1.0 and then
2.0: the reported progress exceeds 1.0. -/
theorem run_progress_overshoot :
    progressOf (run envOver hpOver).events = [1, 2] ∧ ¬ ((2 : ℚ) ≤ 1) := by
  constructor
  · simp [run, tryBlock, envOver, hpOver, totalSteps, phasesLoop, trainPhase,
      epochLoop, microLoop, numMicroBatches, plannedSteps, progressOf,
      List.range_succ]
  · norm_num

/-- C2 (witness): with 2 samples and micro_batch_size 2 the budget is 1
step, progress 1.0 is reported, and the amended bound 1.0 is met. -/
theorem run_progress_accounting_witness :
    totalSteps hpOver 2 = 1
    ∧ (1 : ℚ) ∈ progressOf (run envDvd hpOver).events
    ∧ (1 : ℚ) ≤ 1 := by
  have hmem : (1 : ℚ) ∈ progressOf (run envDvd hpOver).events := by
    simp [run, tryBlock, envDvd, hpOver, totalSteps, phasesLoop, trainPhase,
      epochLoop, microLoop, numMicroBatches, plannedSteps, progressOf,
      List.range_succ]
  refine ⟨?_, hmem, ?_⟩
  · rw [(run_progress_accounting envDvd hpOver).1 2]
    decide
  · exact (run_progress_accounting envDvd hpOver).2.2 [0, 1] rfl (by decide)
      (by decide) 1 hmem

/-- C3 (witness): a concrete cancelled run ends ABORTED and persists
neither performance metrics nor the final model. -/
theorem run_cancellation_witness :
    (run envReach hpReach).final = Status.ABORTED
    ∧ Ev.savePerfMetrics ∉ (run envReach hpReach).events
    ∧ Ev.saveModel ∉ (run envReach hpReach).events := by
  have h := run_cancellation envReach hpReach 2 [0, 1] rfl rfl rfl
    (by intro a b c; simp [envReach]) (fun g => rfl) (by decide) (by decide)
  exact ⟨h.1, h.2.2.1, h.2.2.2⟩

/-- C5 (witness): with 5 samples, micro-batches of 2 and
grad_accum_steps 2, one epoch has 3 micro-batches, the optimizer steps
exactly once (after micro-batch 1), and the trailing micro-batch 2
triggers no step. -/
theorem trainPhase_accumulation_witness :
    stepsOf 0 0 (trainPhase envDvd 0 2 2 5 1 7 ⟨0, []⟩).2.1 =
      (List.range (numMicroBatches 5 2)).filter (fun i => (i + 1) % 2 = 0)
    ∧ (stepsOf 0 0 (trainPhase envDvd 0 2 2 5 1 7 ⟨0, []⟩).2.1).length =
        numMicroBatches 5 2 / 2 := by
  have h := trainPhase_accumulation envDvd 0 2 2 5 1 7 ⟨0, []⟩ (by decide)
    (by intro a b; simp [envDvd]) (fun g => rfl) rfl
  exact ⟨h.1 0 (by decide), h.2.1 0 (by decide)⟩

/-- C9 (counterexample): run() does not return a terminal status to its
caller; the python function has no return statement, so the caller
receives None on a concrete completed run. -/
theorem run_returns_none :
    (run envOver hpOver).retVal = none
    ∧ (run envOver hpOver).retVal ≠ some Status.COMPLETED
    ∧ (run envOver hpOver).retVal ≠ some Status.ABORTED
    ∧ (run envOver hpOver).retVal ≠ some Status.FAILED := by
  refine ⟨rfl, by simp [run], by simp [run], by simp [run]⟩

/-- C7 (counterexample): with 1 minority and 3 majority samples and no
min_less_portion key, the comparison uses the 0.5 default, the body then
indexes the missing key, and the run fails: the missing key is not a
no-op. -/
theorem oversampling_missing_key_fails :
    computeBaseIndexes 1 3 (fun _ => []) none = Except.error ()
    ∧ (run envErr hpOver).final = Status.FAILED := by
  constructor
  · simp only [computeBaseIndexes, Option.getD_none]
    rw [if_pos ⟨by decide, by norm_num⟩]
  · show (tryBlock envErr hpOver).1 = Status.FAILED
    simp [tryBlock, envErr]

/-- C7 (witness): min_less_portion = 0 leaves the index list unchanged, and
an absent key with an empty minority class also leaves it unchanged without
failing. -/
theorem oversampling_min_less_portion_witness :
    computeBaseIndexes 2 1 (fun _ => []) (some 0) =
      Except.ok (List.range 3)
    ∧ computeBaseIndexes 0 5 (fun _ => []) none = Except.ok (List.range 5) := by
  constructor
  · exact (oversampling_min_less_portion 2 1 (fun _ => [])).1
  · exact (oversampling_min_less_portion 0 5 (fun _ => [])).2.2.1
      (by rintro ⟨h1, -⟩; exact absurd h1 (by decide))

end TrainingController

end LogSentinel

namespace LogSentinel

/-- C1 (code bug): for a test batch whose first sample has an empty
log-line list, forward emits the sentinel row (-inf, -inf), torch.argmax
maps it to prediction 0, and the filter all_preds != -1 removes nothing:
the sentinel sample reaches every metric computation paired with its ground
truth label, instead of being excluded. -/
theorem evaluate_sentinel_not_filtered :
    LogSentinelModel.forward Fc [[], [7]] =
      [((⊥ : WithBot ℚ), (⊥ : WithBot ℚ)),
        (((7 : ℚ) : WithBot ℚ), ((7 : ℚ) : WithBot ℚ))]
    ∧ evaluatePreds (LogSentinelModel.forward Fc [[], [7]]) = [0, 0]
    ∧ evalFilter (evaluatePreds (LogSentinelModel.forward Fc [[], [7]]))
        [1, 0] = ([0, 0], [1, 0]) := by
  refine ⟨by decide, by decide, by decide⟩

/-- C6 (code bug): packing two rows of embedding lengths 3 and 5 with left
padding gives the mask [0,0,1,1,1] and [1,1,1,1,1]; the code extracts the
hidden state at column attention_mask.sum - 1, which is 2 for the shorter
sample and 4 for the longer one, while the last column of the padded batch
is 4 for both.  attention_mask.sum - 1 is the right-padding formula and
does not recover padded_length - 1 under left padding. -/
theorem left_padding_extraction_index :
    (stack_and_pad_left [[(1 : ℚ), 1, 1], [1, 1, 1, 1, 1]]).2 =
      [[0, 0, 1, 1, 1], [1, 1, 1, 1, 1]]
    ∧ LogSentinelModel.sequence_lengths
        ((stack_and_pad_left [[(1 : ℚ), 1, 1], [1, 1, 1, 1, 1]]).2) = [2, 4]
    ∧ ((stack_and_pad_left [[(1 : ℚ), 1, 1], [1, 1, 1, 1, 1]]).1.map
        List.length).map (fun n => n - 1) = [4, 4]
    ∧ (2 : ℕ) ≠ 4 := by
  refine ⟨by decide, by decide, by decide, by decide⟩

/-- C4 (witness): for the batch [[], [7]], the empty sample receives the
sentinel row and the surviving sample receives its logits at index 1. -/
theorem forward_row_placement_witness :
    (LogSentinelModel.forward Fc [[], [7]]).getD 0 (⊥, ⊥) = (⊥, ⊥)
    ∧ (LogSentinelModel.forward Fc [[], [7]]).getD 1 (⊥, ⊥) =
        (((7 : ℚ) : WithBot ℚ), ((7 : ℚ) : WithBot ℚ)) := by
  have h := (forward_row_placement Fc [[], [7]]).2.2 [(7, 7)] [1] (by decide)
  exact ⟨h.2.1 0 (by decide) (by decide), h.2.2 0 (by decide)⟩

/-- C10 (witness): for two surviving samples labelled "Anomalous" and
"anomalous", train_helper maps the misspelled capitalised label to class 0
and the exact lowercase label to class 1. -/
theorem train_helper_label_mapping_witness :
    LogSentinelModel.train_helper Fc [[7], [5]] ["Anomalous", "anomalous"] =
      ([(7, 7), (5, 5)], [0, 1]) := by
  rw [(train_helper_label_mapping Fc [[7], [5]] ["Anomalous", "anomalous"]
    [(7, 7), (5, 5)] [0, 1] (by decide)).1]
  decide

end LogSentinel
